import Mathlib

set_option maxHeartbeats 1000000
set_option maxRecDepth 4000

/-!
Shallow embedding of the bfpyjit repository: an optimizing Brainfuck (BF)
interpreter (src/interp.py: `cleanup`, `parse` to a linear IR, `evaluate`)
and a JIT back-end (src/jit.py: `cleanup`, `execute`, which lowers the
sanitized source to LLVM IR and runs it natively).

Conventions of the embedding: characters are `Char`, byte strings are
`List Char`, byte values are `Nat`, Python `int` is `Int` (so that Python's
negative values and its floor-style `%` are modelled by `Int` and `Int.emod`).
Python `bytearray`/list indexing is modelled by explicit index translation
(negative indices wrap once from the end, out-of-range raises).
-/

/-! ## Opcode constants (src/interp.py lines 26-38) -/

def OP_ADD : Nat := 0
def OP_SUB : Nat := 1
def OP_RIGHT : Nat := 2
def OP_LEFT : Nat := 3
def OP_OUT : Nat := 4
def OP_IN : Nat := 5
def OP_OPEN_JMP : Nat := 6
def OP_CLOSE_JMP : Nat := 7
def OP_MOVE : Nat := 8
def OP_CLEAR : Nat := 9
def OP_COPY : Nat := 10
def OP_SCANR : Nat := 11
def OP_SCANL : Nat := 12

/-- IR instruction (class `Opcode` of src/interp.py).  Python keeps a single
dynamically typed `arg` attribute holding an `int` for every opcode except
`OP_COPY`, where it holds the offset-to-multiplier dict; the embedding splits
that attribute into `arg : Int` and `tbl` (the dict as an association list in
insertion order).  Every constructor site of the source sets exactly one of
the two, the other keeps its default (`0` resp. `[]`). -/
structure Opcode where
  op : Nat
  offset : Int
  arg : Int
  tbl : List (Int × Nat)
  deriving DecidableEq, Repr

/-- `instruction_opcode_map` lookup (`instr_to_opcode`, src/interp.py lines
41-69).  `none` models Python's `KeyError` on a non-instruction character. -/
def instr_to_opcode : Char → Option Nat
  | '+' => some OP_ADD
  | '-' => some OP_SUB
  | '>' => some OP_RIGHT
  | '<' => some OP_LEFT
  | '.' => some OP_OUT
  | ',' => some OP_IN
  | '[' => some OP_OPEN_JMP
  | ']' => some OP_CLOSE_JMP
  | _ => none

/-- Membership in `instruction_opcode_map.keys()` (src/interp.py line 109). -/
def isInstr (c : Char) : Bool :=
  (c == '+') || (c == '-') || (c == '>') || (c == '<') ||
  (c == '.') || (c == ',') || (c == '[') || (c == ']')

/-- `cleanup` of src/interp.py (line 108-109): keep only instruction bytes. -/
def cleanup (source : List Char) : List Char :=
  source.filter isInstr

/-- Membership in the literal list of src/jit.py lines 18-21. -/
def isInstrJit (c : Char) : Bool :=
  (c == '+') || (c == '-') || (c == '[') || (c == ']') ||
  (c == ',') || (c == '.') || (c == '<') || (c == '>')

/-- `cleanup` of src/jit.py (lines 18-21). -/
def cleanupJit (source : List Char) : List Char :=
  source.filter isInstrJit

/-! ## Run-length scanner (`_get_repeated_count`, src/interp.py lines 76-86) -/

/-- The `for char in source[start+1:]` loop of `_get_repeated_count`:
count matching characters, stop at the first mismatch (`break`). -/
def grcGo : Char → List Char → Nat
  | _, [] => 0
  | m, c :: rest => if m == c then grcGo c rest + 1 else 0

/-- `_get_repeated_count(source, start)` (src/interp.py lines 76-86).
Python reads `source[start]`; all call sites guarantee `start < len(source)`
(out of range would raise `IndexError`; the embedding returns 0 there). -/
def _get_repeated_count (source : List Char) (start : Nat) : Nat :=
  grcGo (source.getD start ' ') (source.drop (start + 1))

/-! ## Loop-shape recognizers (src/interp.py lines 112-205) -/

/-- `_is_clearloop(code, size, index, mptr)` (src/interp.py lines 112-122).
Python's `size` argument is `len(code)` at every call site, so the embedding
computes it from `code`.  The slice `code[index:index+3]` is
`(code.drop index).take 3`. -/
def _is_clearloop (code : List Char) (index : Nat) (mptr : Int) :
    List Opcode × Nat :=
  if (index : Int) < (code.length : Int) - 3 then
    let clr := (code.drop index).take 3
    if clr = ['[', '+', ']'] ∨ clr = ['[', '-', ']'] then
      ([⟨OP_CLEAR, mptr, 0, []⟩], 3)
    else ([], 0)
  else ([], 0)

/-- `_is_scanloop(code, size, index, mptr)` (src/interp.py lines 125-139). -/
def _is_scanloop (code : List Char) (index : Nat) (mptr : Int) :
    List Opcode × Nat :=
  if (index : Int) < (code.length : Int) - 3 then
    let clr := (code.drop index).take 3
    if clr = ['[', '>', ']'] then ([⟨OP_SCANR, mptr, 0, []⟩], 3)
    else if clr = ['[', '<', ']'] then ([⟨OP_SCANL, mptr, 0, []⟩], 3)
    else ([], 0)
  else ([], 0)

/-- Python dict assignment `d[k] = v` on an insertion-ordered association
list: overwrite in place if the key exists, otherwise append. -/
def dictSet : List (Int × Nat) → Int → Nat → List (Int × Nat)
  | [], k, v => [(k, v)]
  | (k0, v0) :: rest, k, v =>
    if k0 = k then (k0, v) :: rest else (k0, v0) :: dictSet rest k v

/-- First `while i < size` loop of `_is_copyloop` (src/interp.py lines
156-173), iterating over the suffix `code.drop i`; `i` is the absolute index.
Returns `none` for the `return [], 0` on a character outside `+ > <`, and
`some (i, depth, mults)` on the `break` at the first `<` or on falling off
the end of the code. -/
def copyScan : List Char → Nat → Int → Nat → List (Int × Nat) →
    Option (Nat × Int × List (Int × Nat))
  | [], i, depth, _, mults => some (i, depth, mults)
  | c :: rest, i, depth, mult, mults =>
    if c = '>' ∨ c = '<' then
      let mults1 := if mult > 0 then dictSet mults depth mult else mults
      if c = '<' then some (i, depth, mults1)
      else copyScan rest (i + 1) (depth + 1) 0 mults1
    else if c = '+' then copyScan rest (i + 1) depth (mult + 1) mults
    else none

/-- Second `while (i < size) and (code[i] != "]")` loop of `_is_copyloop`
(src/interp.py lines 184-189): consume `<` characters, `none` models the
`return [], 0` on any other character before the `]`. -/
def closeScan : List Char → Nat → Int → Option (Nat × Int)
  | [], i, depth => some (i, depth)
  | c :: rest, i, depth =>
    if c = ']' then some (i, depth)
    else if c ≠ '<' then none
    else closeScan rest (i + 1) (depth - 1)

/-- `_is_copyloop(code, size, index, mptr)` (src/interp.py lines 142-194),
with `size = len(code)` as at every call site.  The guards keep Python's
`int` comparisons (`index > size - 6` can compare against a negative value,
hence the casts to `Int`). -/
def _is_copyloop (code : List Char) (index : Nat) (mptr : Int) :
    List Opcode × Nat :=
  let size := code.length
  if (index : Int) > (size : Int) - 6 then ([], 0)
  else if code.getD (index + 1) ' ' ≠ '-' then ([], 0)
  else
    match copyScan (code.drop (index + 2)) (index + 2) 0 0 [] with
    | none => ([], 0)
    | some (i, depth, mults) =>
      if mults.isEmpty ∨ depth = 0 ∨ i = size - 1 then ([], 0)
      else
        match closeScan (code.drop i) i depth with
        | none => ([], 0)
        | some (i2, d2) =>
          if d2 ≠ 0 ∨ i2 = size - 1 then ([], 0)
          else ([⟨OP_COPY, mptr, 0, mults⟩], (i2 - index) + 1)

/-- `run_loop_optimizers` (src/interp.py lines 197-205): try the clear-loop,
copy-loop and scan-loop recognizers in that order, return the first match. -/
def run_loop_optimizers (code : List Char) (index : Nat) (mptr : Int) :
    List Opcode × Nat :=
  let r1 := _is_clearloop code index mptr
  if r1.2 > 0 then r1
  else
    let r2 := _is_copyloop code index mptr
    if r2.2 > 0 then r2
    else
      let r3 := _is_scanloop code index mptr
      if r3.2 > 0 then r3
      else ([], 0)

/-! ## The IR assembler (`parse`, src/interp.py lines 208-277) -/

/-- Errors raised by `parse`.  `unmatchedClose` is Python's
`RuntimeError("Unmatched ']' found")` (line 242), `unmatchedOpen` is
`RuntimeError("Umatched '[' found")` (line 275, typo in the source),
`keyError` is the `KeyError` `instr_to_opcode` would raise on a
non-instruction character (unreachable: `parse` sanitizes first), and `fuel`
is the embedding's recursion bound (unreachable, see `parse`). -/
inductive ParseErr where
  | unmatchedClose
  | unmatchedOpen
  | keyError
  | fuel
  deriving DecidableEq, Repr

/-- The Python statement `opcodes[loop_start].arg = loop_end`:
update the `arg` field of the element at an index, in place. -/
def setArg : List Opcode → Nat → Int → List Opcode
  | [], _, _ => []
  | x :: rest, 0, v => { x with arg := v } :: rest
  | x :: rest, k + 1, v => x :: setArg rest k v

/-- The `while pc < size` loop of `parse` (src/interp.py lines 217-277),
as structural recursion on a fuel argument.  `pc` strictly increases each
iteration, so fuel `len(code) + 1` (supplied by `parse`) never runs out. -/
def parseLoop (code : List Char) :
    Nat → Nat → Int → List Nat → List Opcode → Except ParseErr (List Opcode)
  | 0, _, _, _, _ => .error .fuel
  | fuel + 1, pc, mptr, loop_starts, opcodes =>
    if h : pc < code.length then
      match instr_to_opcode (code.get ⟨pc, h⟩) with
      | none => .error .keyError
      | some opcode =>
        if opcode = OP_OPEN_JMP then
          let r := run_loop_optimizers code pc mptr
          if r.2 > 0 then
            parseLoop code fuel (pc + r.2) 0 loop_starts (opcodes ++ r.1)
          else
            let opcodes1 :=
              if mptr ≠ 0 then opcodes ++ [⟨OP_MOVE, 0, mptr, []⟩] else opcodes
            parseLoop code fuel (pc + 1) 0 (opcodes1.length :: loop_starts)
              (opcodes1 ++ [⟨OP_OPEN_JMP, 0, 0, []⟩])
        else if opcode = OP_CLOSE_JMP then
          match loop_starts with
          | [] => .error .unmatchedClose
          | loop_start :: rest =>
            let loop_end := opcodes.length
            parseLoop code fuel (pc + 1) 0 rest
              (setArg opcodes loop_start (loop_end : Int) ++
                [⟨OP_CLOSE_JMP, mptr, (loop_start : Int), []⟩])
        else if opcode = OP_IN ∨ opcode = OP_OUT then
          parseLoop code fuel (pc + 1) 0 loop_starts
            (opcodes ++ [⟨opcode, mptr, 0, []⟩])
        else
          let repeats := _get_repeated_count code pc
          if opcode = OP_LEFT then
            parseLoop code fuel (pc + repeats + 1) (mptr - ((repeats : Int) + 1))
              loop_starts opcodes
          else if opcode = OP_RIGHT then
            parseLoop code fuel (pc + repeats + 1) (mptr + ((repeats : Int) + 1))
              loop_starts opcodes
          else
            parseLoop code fuel (pc + repeats + 1) 0 loop_starts
              (opcodes ++ [⟨opcode, mptr, (repeats : Int) + 1, []⟩])
    else
      if loop_starts.isEmpty then .ok opcodes else .error .unmatchedOpen

/-- `parse(source)` (src/interp.py lines 208-277). -/
def parse (source : List Char) : Except ParseErr (List Opcode) :=
  let code := cleanup source
  parseLoop code (code.length + 1) 0 0 [] []

-- Smoke tests for the front end, from spec scenarios.
/-! ## The IR interpreter (`evaluate`, src/interp.py lines 280-383) -/

/-- Runtime errors of `evaluate`.  `index` is Python's `IndexError` (tape or
opcode-list index out of range), `value` is the `ValueError` a `bytearray`
store of a value above 255 would raise, `fuel` is the embedding's step
budget running out (the Python loop would simply still be running). -/
inductive EvalErr where
  | index
  | value
  | fuel
  deriving DecidableEq, Repr

/-- Python sequence index translation: a negative index wraps once from the
end, anything else out of `[-size, size)` raises. -/
def pyIdx (size : Nat) (i : Int) : Option Nat :=
  if 0 ≤ i ∧ i < (size : Int) then some i.toNat
  else if -(size : Int) ≤ i ∧ i < 0 then some (i + (size : Int)).toNat
  else none

/-- Read `memory[i]` of the 30000-cell `bytearray` (src/interp.py line 286). -/
def memRead (mem : Nat → Nat) (i : Int) : Except EvalErr Nat :=
  match pyIdx 30000 i with
  | some n => .ok (mem n)
  | none => .error .index

/-- Write `memory[i] = v`; a `bytearray` store demands `0 ≤ v < 256`. -/
def memWrite (mem : Nat → Nat) (i : Int) (v : Nat) :
    Except EvalErr (Nat → Nat) :=
  match pyIdx 30000 i with
  | some n => if v < 256 then .ok (fun m => if m = n then v else mem m)
              else .error .value
  | none => .error .index

/-- `opcodes[pc]` with Python list-index semantics (`pc` is a Python int and
can become negative through an `OP_OPEN_JMP`/`OP_CLOSE_JMP` arg). -/
def pyListGet (l : List Opcode) (i : Int) : Option Opcode :=
  match pyIdx l.length i with
  | some n => l.get? n
  | none => none

/-- Interpreter state of `evaluate`.  `stdinBuf` is the `stdin` list built
from `data_input` (`none` when `data_input` is `None`; Python reverses the
list and pops from the end, which the embedding models as consuming an
un-reversed list from the front).  `world` is the ambient process standard
input consumed by `os.read(0, 1)`, `outBuf` is `out_buffer`, and
`stdoutBuf` collects the bytes `write_stdout` sends to the process standard
output. -/
structure EvalState where
  memory : Nat → Nat
  pc : Int
  mptr : Int
  stdinBuf : Option (List Nat)
  world : List Nat
  outBuf : List Nat
  stdoutBuf : List Nat

/-- `do_read` (src/interp.py lines 303-315): `read_buffer` when a
`data_input` was supplied (empty string, i.e. `none`, once exhausted),
`read_stdin` otherwise (empty bytes at end of file). -/
def doRead (st : EvalState) : Option Nat × EvalState :=
  match st.stdinBuf with
  | some [] => (none, st)
  | some (b :: rest) => (some b, { st with stdinBuf := some rest })
  | none =>
    match st.world with
    | [] => (none, st)
    | b :: rest => (some b, { st with world := rest })

/-- The `while mptr > 0 and memory[mptr] != 1: mptr -= 1` loop of the
`OP_SCANR` case (src/interp.py lines 364-367), called with the Nat value of
a positive `mptr` (the loop body is not entered for `mptr ≤ 0`). -/
def scanrGo (mem : Nat → Nat) : Nat → Except EvalErr Int
  | 0 => .ok 0
  | n + 1 =>
    if n + 1 < 30000 then
      if mem (n + 1) ≠ 1 then scanrGo mem n else .ok ((n : Int) + 1)
    else .error .index

/-- The `while mptr < (size - 1) and memory[mptr] != 0: mptr += 1` loop of
the `OP_SCANL` case (src/interp.py lines 369-372); note `size` there is
`len(opcodes)`.  The caller passes fuel `((size - 1) - mptr).toNat`, which
is exactly the number of remaining iterations, so fuel 0 coincides with the
`mptr < size - 1` test failing. -/
def scanlGo (mem : Nat → Nat) : Nat → Int → Except EvalErr Int
  | 0, p => .ok p
  | n + 1, p =>
    match memRead mem p with
    | .error e => .error e
    | .ok v => if v ≠ 0 then scanlGo mem n (p + 1) else .ok p

/-- The `for offset in op.arg` loop of the `OP_COPY` case (src/interp.py
lines 359-361): iterate the dict in insertion order; `memory[mptr]` is
re-read on every iteration. -/
def copyFold (p : Int) : (Nat → Nat) → List (Int × Nat) →
    Except EvalErr (Nat → Nat)
  | mem, [] => .ok mem
  | mem, (off, m) :: rest =>
    match memRead mem p with
    | .error e => .error e
    | .ok base =>
      match memRead mem (p + off) with
      | .error e => .error e
      | .ok cur =>
        match memWrite mem (p + off) (((cur : Int) + (base : Int) * m).emod 256).toNat with
        | .error e => .error e
        | .ok mem2 => copyFold p mem2 rest

/-- One iteration of the `while pc < size` loop of `evaluate`
(src/interp.py lines 317-381), including the final `pc += 1`. -/
def evalStep (ops : List Opcode) (bufferOutput : Bool) (st : EvalState) :
    Except EvalErr EvalState :=
  match pyListGet ops st.pc with
  | none => .error .index
  | some op =>
    if op.op = OP_MOVE then
      .ok { st with mptr := st.mptr + op.arg, pc := st.pc + 1 }
    else if op.op = OP_ADD then
      let p := st.mptr + op.offset
      match memRead st.memory p with
      | .error e => .error e
      | .ok v =>
        match memWrite st.memory p (((v : Int) + op.arg).emod 256).toNat with
        | .error e => .error e
        | .ok mem2 => .ok { st with memory := mem2, mptr := p, pc := st.pc + 1 }
    else if op.op = OP_SUB then
      let p := st.mptr + op.offset
      match memRead st.memory p with
      | .error e => .error e
      | .ok v =>
        match memWrite st.memory p (((v : Int) - op.arg).emod 256).toNat with
        | .error e => .error e
        | .ok mem2 => .ok { st with memory := mem2, mptr := p, pc := st.pc + 1 }
    else if op.op = OP_OPEN_JMP then
      let p := st.mptr + op.offset
      match memRead st.memory p with
      | .error e => .error e
      | .ok v =>
        .ok { st with mptr := p, pc := (if v = 0 then op.arg else st.pc) + 1 }
    else if op.op = OP_CLOSE_JMP then
      let p := st.mptr + op.offset
      match memRead st.memory p with
      | .error e => .error e
      | .ok v =>
        .ok { st with mptr := p, pc := (if v ≠ 0 then op.arg - 1 else st.pc) + 1 }
    else if op.op = OP_OUT then
      let p := st.mptr + op.offset
      match memRead st.memory p with
      | .error e => .error e
      | .ok v =>
        if bufferOutput then
          .ok { st with mptr := p, outBuf := st.outBuf ++ [v], pc := st.pc + 1 }
        else
          .ok { st with mptr := p, stdoutBuf := st.stdoutBuf ++ [v], pc := st.pc + 1 }
    else if op.op = OP_IN then
      let p := st.mptr + op.offset
      let rd := doRead { st with mptr := p }
      match rd.1 with
      | some v =>
        if v > 0 then
          match memWrite rd.2.memory p v with
          | .error e => .error e
          | .ok mem2 => .ok { rd.2 with memory := mem2, pc := st.pc + 1 }
        else .ok { rd.2 with pc := st.pc + 1 }
      | none => .ok { rd.2 with pc := st.pc + 1 }
    else if op.op = OP_CLEAR then
      let p := st.mptr + op.offset
      match memWrite st.memory p 0 with
      | .error e => .error e
      | .ok mem2 => .ok { st with memory := mem2, mptr := p, pc := st.pc + 1 }
    else if op.op = OP_COPY then
      let p := st.mptr + op.offset
      match memRead st.memory p with
      | .error e => .error e
      | .ok v =>
        if v > 0 then
          match copyFold p st.memory op.tbl with
          | .error e => .error e
          | .ok mem2 =>
            match memWrite mem2 p 0 with
            | .error e => .error e
            | .ok mem3 =>
              .ok { st with memory := mem3, mptr := p, pc := st.pc + 1 }
        else .ok { st with mptr := p, pc := st.pc + 1 }
    else if op.op = OP_SCANR then
      let p := st.mptr + op.offset
      match (if p > 0 then scanrGo st.memory p.toNat else .ok p) with
      | .error e => .error e
      | .ok p2 => .ok { st with mptr := p2, pc := st.pc + 1 }
    else if op.op = OP_SCANL then
      let p := st.mptr + op.offset
      match scanlGo st.memory (((ops.length : Int) - 1 - p).toNat) p with
      | .error e => .error e
      | .ok p2 => .ok { st with mptr := p2, pc := st.pc + 1 }
    else
      .ok { st with pc := st.pc + 1 }

/-- The `while pc < size` loop of `evaluate`, with a step budget. -/
def evalLoop (ops : List Opcode) (bufferOutput : Bool) :
    Nat → EvalState → Except EvalErr EvalState
  | 0, st => if st.pc < (ops.length : Int) then .error .fuel else .ok st
  | fuel + 1, st =>
    if st.pc < (ops.length : Int) then
      match evalStep ops bufferOutput st with
      | .error e => .error e
      | .ok st2 => evalLoop ops bufferOutput fuel st2
    else .ok st

/-- Initial state of `evaluate(opcodes, data_input, buffer_output)`:
zeroed 30000-cell tape, `pc = mptr = 0`. -/
def initState (inp : Option (List Nat)) (world : List Nat) : EvalState :=
  { memory := fun _ => 0, pc := 0, mptr := 0, stdinBuf := inp,
    world := world, outBuf := [], stdoutBuf := [] }

/-- `evaluate(opcodes, data_input, buffer_output)` run to completion within
`fuel` steps, where `world` is the ambient process standard input. -/
def evalRun (ops : List Opcode) (inp : Option (List Nat))
    (bufferOutput : Bool) (world : List Nat) (fuel : Nat) :
    Except EvalErr EvalState :=
  evalLoop ops bufferOutput fuel (initState inp world)

/-- The interpreter path of the repository: `evaluate(parse(source),
data_input, buffer_output=True)`, returning the buffered output string. -/
def interpRunOut (source : List Char) (inp : Option (List Nat))
    (fuel : Nat) : Option (List Nat) :=
  match parse source with
  | .error _ => none
  | .ok ops =>
    match evalRun ops inp true [] fuel with
    | .ok st => some st.outBuf
    | .error _ => none

/-! ## The JIT back-end (`execute`, src/jit.py lines 48-217)

`execute` emits LLVM IR for the sanitized source and runs it natively; the
embedding gives the operational semantics of the emitted program: a
30000-byte zeroed stack tape, an integer data pointer starting at 0, and
per-character lowering exactly as in the emission loop (lines 87-169).
`,` is lowered to `getchar()` whose result is stored unconditionally
(lines 130-138); `getchar` is declared to return `i8`, so C's EOF value
`-1` arrives as the byte 255.  A `[`/`]` pair branches between the
loop-body block (the code right after the `[`) and the post-loop block (the
code right after the matching `]`).  A tape access out of `[0, 30000)` is
undefined behavior of the emitted code and is modelled as an error. -/

inductive JitErr where
  | ub
  | unmatched
  | fuel
  deriving DecidableEq, Repr

structure JitState where
  memory : Nat → Nat
  p : Int
  pc : Nat
  input : List Nat
  output : List Nat

/-- Position of the `]` matching the `[` at index `i` (scans the suffix). -/
def findCloseGo : List Char → Nat → Nat → Option Nat
  | [], _, _ => none
  | c :: rest, i, depth =>
    if c = ']' then
      if depth = 0 then some i else findCloseGo rest (i + 1) (depth - 1)
    else if c = '[' then findCloseGo rest (i + 1) (depth + 1)
    else findCloseGo rest (i + 1) depth

def findClose (src : List Char) (i : Nat) : Option Nat :=
  findCloseGo (src.drop (i + 1)) (i + 1) 0

/-- The compile-time `left_stack` of `execute` at position `i`: indices of
`[` characters before `i` that are not yet closed, most recent first. -/
def openStackGo : List Char → Nat → List Nat → List Nat
  | [], _, stack => stack
  | c :: rest, i, stack =>
    if c = '[' then openStackGo rest (i + 1) (i :: stack)
    else if c = ']' then openStackGo rest (i + 1) stack.tail
    else openStackGo rest (i + 1) stack

/-- Position of the `[` matching the `]` at index `i`. -/
def findOpen (src : List Char) (i : Nat) : Option Nat :=
  (openStackGo (src.take i) 0 []).head?

/-- One step of the natively executed program at source character `c`. -/
def jitStep (src : List Char) (st : JitState) (c : Char) :
    Except JitErr JitState :=
  if c = '>' then .ok { st with p := st.p + 1, pc := st.pc + 1 }
  else if c = '<' then .ok { st with p := st.p - 1, pc := st.pc + 1 }
  else if c = '+' ∨ c = '-' then
    if 0 ≤ st.p ∧ st.p < 30000 then
      let v := st.memory st.p.toNat
      let v2 := if c = '+' then (((v : Int) + 1).emod 256).toNat
                else (((v : Int) - 1).emod 256).toNat
      .ok { st with
        memory := fun m => if m = st.p.toNat then v2 else st.memory m,
        pc := st.pc + 1 }
    else .error .ub
  else if c = '.' then
    if 0 ≤ st.p ∧ st.p < 30000 then
      .ok { st with
        output := st.output ++ [st.memory st.p.toNat],
        pc := st.pc + 1 }
    else .error .ub
  else if c = ',' then
    if 0 ≤ st.p ∧ st.p < 30000 then
      let b := match st.input with
               | [] => 255
               | x :: _ => x % 256
      .ok { st with
        memory := fun m => if m = st.p.toNat then b else st.memory m,
        input := st.input.tail, pc := st.pc + 1 }
    else .error .ub
  else if c = '[' then
    if 0 ≤ st.p ∧ st.p < 30000 then
      if st.memory st.p.toNat = 0 then
        match findClose src st.pc with
        | some j => .ok { st with pc := j + 1 }
        | none => .error .unmatched
      else .ok { st with pc := st.pc + 1 }
    else .error .ub
  else if c = ']' then
    if 0 ≤ st.p ∧ st.p < 30000 then
      if st.memory st.p.toNat ≠ 0 then
        match findOpen src st.pc with
        | some j => .ok { st with pc := j + 1 }
        | none => .error .unmatched
      else .ok { st with pc := st.pc + 1 }
    else .error .ub
  else .ok { st with pc := st.pc + 1 }

def jitLoop (src : List Char) : Nat → JitState → Except JitErr JitState
  | 0, st => if st.pc < src.length then .error .fuel else .ok st
  | fuel + 1, st =>
    if h : st.pc < src.length then
      match jitStep src st (src.get ⟨st.pc, h⟩) with
      | .error e => .error e
      | .ok st2 => jitLoop src fuel st2
    else .ok st

/-- The JIT path of the repository run on the sanitized source. -/
def jitExec (src : List Char) (input : List Nat) (fuel : Nat) :
    Except JitErr JitState :=
  jitLoop src fuel
    { memory := fun _ => 0, p := 0, pc := 0, input := input, output := [] }

/-- Output stream of the JIT path. -/
def jitRunOut (source : List Char) (input : List Nat) (fuel : Nat) :
    Option (List Nat) :=
  match jitExec (cleanupJit source) input fuel with
  | .ok st => some st.output
  | .error _ => none

-- Smoke tests: the divergences backing C1, C2 and C3.
/-! ## Derived definitions used by the statements and proofs -/

/-- The `mults` dict built by the first loop of `_is_copyloop` while it
consumes the block `w` (right-moves and increments) and then meets the
first left-move: the multiplier recorded at offset `o` is the length of the
run of `+` ending when the pointer leaves offset `o`. -/
def multsAcc : List Char → Int → Nat → List (Int × Nat) → List (Int × Nat)
  | [], depth, mult, mults =>
    if mult > 0 then dictSet mults depth mult else mults
  | c :: rest, depth, mult, mults =>
    if c = '>' then
      multsAcc rest (depth + 1) 0
        (if mult > 0 then dictSet mults depth mult else mults)
    else multsAcc rest depth (mult + 1) mults

/-- The copy/multiply source shape of spec §4.3 at position `index`:
opening bracket, one decrement, a block `w` of right-moves and increments
with at least one increment and exactly `d ≥ 1` right-moves, `d` left-moves
returning the drift to zero, and the closing bracket, followed by `rest`. -/
def CopyShape (code : List Char) (index : Nat) (w : List Char) (d : Nat)
    (rest : List Char) : Prop :=
  code.drop index =
    '[' :: '-' :: (w ++ (List.replicate d '<' ++ ']' :: rest)) ∧
  (∀ c ∈ w, c = '>' ∨ c = '+') ∧ w.count '>' = d ∧ 1 ≤ d ∧ '+' ∈ w

/-- An outcome of the left-to-right assembly pass, spec §7's taxonomy. -/
inductive ScanOutcome where
  | ok
  | unmatchedClose
  | unmatchedOpen
  | err
  deriving DecidableEq, Repr

/-- The claim's notion of "reaching a `]` while the stack of open brackets
is empty" resp. "reaching the end of the source with a nonempty stack":
a scan over the sanitized source that consumes characters exactly as
`parse` does and tracks only the height of `loop_starts`. -/
def bracketScan (code : List Char) : Nat → Nat → Nat → ScanOutcome
  | 0, _, _ => .err
  | fuel + 1, pc, depth =>
    if h : pc < code.length then
      match instr_to_opcode (code.get ⟨pc, h⟩) with
      | none => .err
      | some opcode =>
        if opcode = OP_OPEN_JMP then
          if (run_loop_optimizers code pc 0).2 > 0 then
            bracketScan code fuel (pc + (run_loop_optimizers code pc 0).2)
              depth
          else bracketScan code fuel (pc + 1) (depth + 1)
        else if opcode = OP_CLOSE_JMP then
          match depth with
          | 0 => .unmatchedClose
          | d + 1 => bracketScan code fuel (pc + 1) d
        else if opcode = OP_IN ∨ opcode = OP_OUT then
          bracketScan code fuel (pc + 1) depth
        else
          bracketScan code fuel (pc + _get_repeated_count code pc + 1) depth
    else if depth = 0 then .ok else .unmatchedOpen

def bracketCheck (code : List Char) : ScanOutcome :=
  bracketScan code (code.length + 1) 0 0

def outcomeOf : Except ParseErr (List Opcode) → ScanOutcome
  | .ok _ => .ok
  | .error .unmatchedClose => .unmatchedClose
  | .error .unmatchedOpen => .unmatchedOpen
  | .error .keyError => .err
  | .error .fuel => .err

/-- `opcodes[i]` with a junk default (all uses are guarded by bounds). -/
def opAt (ops : List Opcode) (i : Nat) : Opcode :=
  ops.getD i ⟨99, 0, 0, []⟩

/-- `opcodes[i]` is an `Open` whose `arg` names index `j`. -/
def IsOpenAt (ops : List Opcode) (i j : Nat) : Prop :=
  i < ops.length ∧ (opAt ops i).op = OP_OPEN_JMP ∧
    (opAt ops i).arg = (j : Int)

/-- `opcodes[j]` is a `Close` whose `arg` names the `Open` index `i < j`. -/
def ClosesAt (ops : List Opcode) (j i : Nat) : Prop :=
  i < j ∧ j < ops.length ∧ (opAt ops j).op = OP_CLOSE_JMP ∧
    (opAt ops j).arg = (i : Int)

/-- No two `Open`/`Close` pairs partially overlap. -/
def WellNested (ops : List Opcode) : Prop :=
  ∀ i1 j1 i2 j2, IsOpenAt ops i1 j1 → IsOpenAt ops i2 j2 →
    i1 < i2 → i2 < j1 → j2 < j1

/-- Invariant of the `parse` loop relating `loop_starts` (`stack`, most
recent first) and the emitted `opcodes`: stack entries strictly decrease
towards the bottom and point at `Open` opcodes; every `Open` not on the
stack is already correctly paired with a later `Close` and does not
straddle any stack entry; and the closed pairs are well-nested. -/
structure PInv (stack : List Nat) (ops : List Opcode) : Prop where
  sorted : stack.Pairwise (fun a b => b < a)
  mem : ∀ k ∈ stack, k < ops.length ∧ (opAt ops k).op = OP_OPEN_JMP
  pairs : ∀ i j, i ∉ stack → IsOpenAt ops i j →
    ClosesAt ops j i ∧ ∀ k ∈ stack, k < i ∨ j < k
  nested : ∀ i1 j1 i2 j2, i1 ∉ stack → i2 ∉ stack →
    IsOpenAt ops i1 j1 → IsOpenAt ops i2 j2 → i1 < i2 → i2 < j1 → j2 < j1

/-- Modelled from the spec (§4.5 table, the claim's wording): after the
offset is applied, `ScanR` should advance the pointer RIGHT, one cell at a
time, stopping exactly at the first zero cell. -/
def scanRSpec (mem : Nat → Nat) : Nat → Int → Option Int
  | 0, _ => none
  | f + 1, p =>
    if 0 ≤ p ∧ p < 30000 then
      if mem p.toNat = 0 then some p else scanRSpec mem f (p + 1)
    else none

/-- The tape `1 1 0 0 ...` reached just before the scan of `+>+>[>].`. -/
def demoTape : Nat → Nat := fun n => if n < 2 then 1 else 0

/-- Tape cell 0 after a JIT run. -/
def jitMem0 (source : List Char) (input : List Nat) (fuel : Nat) :
    Option Nat :=
  match jitExec (cleanupJit source) input fuel with
  | .ok st => some (st.memory 0)
  | .error _ => none

/-- Interpreter state just before an `In`: cell values 5, next input byte
is NUL. -/
def inDemoSt : EvalState :=
  { memory := fun _ => 5, pc := 0, mptr := 0, stdinBuf := some [0],
    world := [], outBuf := [], stdoutBuf := [] }

/-- The state `evalStep` produces from `inDemoSt` on `In`. -/
def inDemoSt2 : EvalState :=
  { memory := fun _ => 5, pc := 1, mptr := 0, stdinBuf := some [],
    world := [], outBuf := [], stdoutBuf := [] }

/-- JIT state just before a `,`: cell 0 holds 7, next input byte is NUL. -/
def jitDemoSt : JitState :=
  { memory := fun n => if n = 0 then 7 else 0, p := 0, pc := 0,
    input := [0], output := [] }

/-- The state `jitStep` produces from `jitDemoSt` on `,`. -/
def jitDemoSt2 : JitState :=
  { memory := fun m => if m = 0 then 0 else jitDemoSt.memory m, p := 0,
    pc := 1, input := [], output := [] }

/-- Replace the ambient standard-input stream of a state. -/
def setWorld (w : List Nat) (st : EvalState) : EvalState :=
  { st with world := w }

/-! ## C9: the sanitizer is an order-preserving idempotent filter -/

theorem isInstrJit_eq_isInstr : isInstrJit = isInstr := by
  funext c
  unfold isInstr isInstrJit
  cases c == '+' <;> cases c == '-' <;> cases c == '>' <;> cases c == '<' <;>
    cases c == '.' <;> cases c == ',' <;> cases c == '[' <;> cases c == ']' <;>
    rfl

/-- C9: for any source `s`, `cleanup s` (identical in src/interp.py and
src/jit.py) is the subsequence of `s` consisting of exactly its occurrences
of the eight instruction bytes in order; it is the identity on
all-instruction inputs; and it is idempotent. -/
theorem cleanup_filter_props (s : List Char) :
    cleanupJit s = cleanup s ∧
    (∀ c ∈ cleanup s, isInstr c) ∧
    (cleanup s).Sublist s ∧
    (∀ c, isInstr c → (cleanup s).count c = s.count c) ∧
    ((∀ c ∈ s, isInstr c) → cleanup s = s) ∧
    cleanup (cleanup s) = cleanup s := by
  refine ⟨?_, ?_, ?_, ?_, ?_, ?_⟩
  · unfold cleanupJit cleanup
    rw [isInstrJit_eq_isInstr]
  · intro c hc
    exact (List.mem_filter.mp hc).2
  · exact List.filter_sublist s
  · intro c hc
    exact List.count_filter hc
  · intro h
    exact List.filter_eq_self.mpr h
  · refine List.filter_eq_self.mpr ?_
    intro a ha
    exact (List.mem_filter.mp ha).2

/-- Witness for C9: evaluation of `cleanup` on concrete inputs through the
theorem (the identity part applied to an all-instruction string, the
idempotence part to a string with comment bytes). -/
theorem cleanup_filter_props_w :
    cleanup (cleanup ['a', '+', ' ', ']']) = cleanup ['a', '+', ' ', ']'] ∧
    cleanup ['+', '-', '[', ']'] = ['+', '-', '[', ']'] :=
  ⟨(cleanup_filter_props ['a', '+', ' ', ']']).2.2.2.2.2,
    (cleanup_filter_props ['+', '-', '[', ']']).2.2.2.2.1 (by decide)⟩

/-! ## C7: the run-length scanner -/

theorem grcGo_eq_takeWhile (m : Char) (l : List Char) :
    grcGo m l = (l.takeWhile (fun c => c == m)).length := by
  induction l generalizing m with
  | nil => rfl
  | cons c rest ih =>
    by_cases h : m = c
    · subst h
      simp [grcGo, List.takeWhile_cons, ih]
    · have h2 : (c == m) = false := by
        simp [beq_iff_eq]
        exact fun hc => h hc.symm
      simp [grcGo, List.takeWhile_cons, h, h2]

theorem getD_eq_headD_drop (l : List Char) (n : Nat) (d : Char) :
    l.getD n d = (l.drop n).headD d := by
  induction n generalizing l with
  | zero => cases l <;> rfl
  | succ n ih =>
    cases l with
    | nil => rfl
    | cons x t => simp only [List.getD_cons_succ, List.drop_succ_cons]; exact ih t

/-- C7 (amended): `_get_repeated_count(s, i)` returns the number of
consecutive occurrences of `s[i]` strictly AFTER position `i` — one less
than the length of the run starting at `i` (second conjunct); in particular
it returns 0, not 1, when `s[i+1]` differs from `s[i]` or `i` is the last
index.  (The callers in `parse` use `repeats + 1`.) -/
theorem grc_amended (s : List Char) (i : Nat) (h : i < s.length) :
    _get_repeated_count s i =
      ((s.drop (i + 1)).takeWhile (fun c => c == s.getD i ' ')).length ∧
    ((s.drop i).takeWhile (fun c => c == s.getD i ' ')).length =
      _get_repeated_count s i + 1 := by
  constructor
  · exact grcGo_eq_takeWhile _ _
  · rw [List.drop_eq_getElem_cons h, List.takeWhile_cons]
    have hself : (s[i] == s.getD i ' ') = true := by
      simp [List.getD_eq_getElem?_getD, List.getElem?_eq_getElem h]
    rw [hself]
    simp only [if_true, List.length_cons]
    rw [← grcGo_eq_takeWhile]
    rfl

/-- C7 counterexample: on the one-character source `"+"` at index 0 the
claim demands the count 1 (the run `"+"` has length 1, second conjunct),
but `_get_repeated_count` returns 0. -/
theorem grc_single_run_zero :
    _get_repeated_count ['+'] 0 = 0 ∧
    ((['+'] : List Char).takeWhile (fun c => c == '+')).length = 1 :=
  ⟨rfl, rfl⟩

/-- Witness for C7 at the concrete input `"++-"`, index 0. -/
theorem grc_amended_w :
    _get_repeated_count ['+', '+', '-'] 0 =
      (((['+', '+', '-'] : List Char).drop 1).takeWhile
        (fun c => c == (['+', '+', '-'] : List Char).getD 0 ' ')).length ∧
    (((['+', '+', '-'] : List Char).drop 0).takeWhile
        (fun c => c == (['+', '+', '-'] : List Char).getD 0 ' ')).length =
      _get_repeated_count ['+', '+', '-'] 0 + 1 :=
  grc_amended ['+', '+', '-'] 0 (by decide)

/-! ## C6: the clear-loop recognizer -/

/-- C6 (amended): `_is_clearloop` emits `Clear(offset = mptr)` and consumes
3 characters whenever the three-character window at `index` is `[-]` or
`[+]` AND at least one further character follows the window
(`index < size - 3`); when the window is the last three characters of the
source the recognizer rejects (see the counterexample). -/
theorem clearloop_amended (code : List Char) (index : Nat) (mptr : Int)
    (h1 : (index : Int) < (code.length : Int) - 3)
    (h2 : (code.drop index).take 3 = ['[', '-', ']'] ∨
      (code.drop index).take 3 = ['[', '+', ']']) :
    _is_clearloop code index mptr = ([⟨OP_CLEAR, mptr, 0, []⟩], 3) := by
  unfold _is_clearloop
  rcases h2 with h | h <;> simp [h1, h]

/-- C6 counterexample: the source `[-]` is exactly a clear-loop window in
its last three characters, yet the recognizer reports no match. -/
theorem clearloop_rejects_final_window :
    ((['[', '-', ']'] : List Char).drop 0).take 3 = ['[', '-', ']'] ∧
    _is_clearloop ['[', '-', ']'] 0 0 = ([], 0) :=
  ⟨rfl, rfl⟩

/-- Witness for C6 at the concrete source `[-]+`, index 0, drift 5. -/
theorem clearloop_amended_w :
    _is_clearloop ['[', '-', ']', '+'] 0 5 = ([⟨OP_CLEAR, 5, 0, []⟩], 3) :=
  clearloop_amended ['[', '-', ']', '+'] 0 5 (by decide) (Or.inl rfl)

/-! ## C5: the copy/multiply-loop recognizer -/

theorem copyScan_run (w : List Char) : ∀ (i : Nat) (depth : Int)
    (mult : Nat) (mults : List (Int × Nat)) (tail : List Char),
    (∀ c ∈ w, c = '>' ∨ c = '+') →
    copyScan (w ++ '<' :: tail) i depth mult mults =
      some (i + w.length, depth + (w.count '>' : Int),
        multsAcc w depth mult mults) := by
  induction w with
  | nil =>
    intro i depth mult mults tail _
    simp [copyScan, multsAcc]
  | cons c w' ih =>
    intro i depth mult mults tail hw
    rcases hw c (List.mem_cons_self c w') with hc | hc
    · subst hc
      rw [List.cons_append]
      rw [show copyScan ('>' :: (w' ++ '<' :: tail)) i depth mult mults =
          copyScan (w' ++ '<' :: tail) (i + 1) (depth + 1) 0
            (if mult > 0 then dictSet mults depth mult else mults) from rfl]
      rw [ih (i + 1) (depth + 1) 0 _ tail
        (fun c hc => hw c (List.mem_cons_of_mem _ hc))]
      have hcnt : ('>' :: w').count '>' = w'.count '>' + 1 :=
        List.count_cons_self '>' w'
      rw [hcnt]
      have hmults : multsAcc ('>' :: w') depth mult mults =
          multsAcc w' (depth + 1) 0
            (if mult > 0 then dictSet mults depth mult else mults) := by
        simp [multsAcc]
      rw [hmults]
      simp only [List.length_cons, Option.some.injEq, Prod.mk.injEq,
        eq_self_iff_true, and_true]
      constructor <;> omega
    · subst hc
      rw [List.cons_append]
      rw [show copyScan ('+' :: (w' ++ '<' :: tail)) i depth mult mults =
          copyScan (w' ++ '<' :: tail) (i + 1) depth (mult + 1) mults from
        rfl]
      rw [ih (i + 1) depth (mult + 1) mults tail
        (fun c hc => hw c (List.mem_cons_of_mem _ hc))]
      have hcnt : ('+' :: w').count '>' = w'.count '>' :=
        List.count_cons_of_ne (by decide) w'
      have hmults : multsAcc ('+' :: w') depth mult mults =
          multsAcc w' depth (mult + 1) mults := by
        simp [multsAcc]
      rw [hcnt, hmults]
      simp only [List.length_cons, Option.some.injEq, Prod.mk.injEq,
        eq_self_iff_true, and_true]
      omega

theorem closeScan_run (d : Nat) : ∀ (i : Nat) (depth : Int)
    (tail : List Char),
    closeScan (List.replicate d '<' ++ ']' :: tail) i depth =
      some (i + d, depth - (d : Int)) := by
  induction d with
  | zero =>
    intro i depth tail
    simp [closeScan]
  | succ d ih =>
    intro i depth tail
    rw [List.replicate_succ, List.cons_append]
    rw [show closeScan ('<' :: (List.replicate d '<' ++ ']' :: tail)) i depth =
        closeScan (List.replicate d '<' ++ ']' :: tail) (i + 1) (depth - 1)
      from rfl]
    rw [ih (i + 1) (depth - 1) tail]
    simp only [Option.some.injEq, Prod.mk.injEq]
    refine ⟨by omega, by push_cast; ring⟩

theorem dictSet_ne_nil (l : List (Int × Nat)) (k : Int) (v : Nat) :
    dictSet l k v ≠ [] := by
  cases l with
  | nil => simp [dictSet]
  | cons x rest =>
    obtain ⟨k0, v0⟩ := x
    simp only [dictSet]
    split <;> simp

theorem multsAcc_ne_nil_keep (w : List Char) : ∀ (depth : Int) (mult : Nat)
    (mults : List (Int × Nat)), mults ≠ [] →
    multsAcc w depth mult mults ≠ [] := by
  induction w with
  | nil =>
    intro depth mult mults h
    simp only [multsAcc]
    split
    · exact dictSet_ne_nil _ _ _
    · exact h
  | cons c w' ih =>
    intro depth mult mults h
    simp only [multsAcc]
    split
    · refine ih _ _ _ ?_
      split
      · exact dictSet_ne_nil _ _ _
      · exact h
    · exact ih _ _ _ h

theorem multsAcc_ne_nil (w : List Char) : ∀ (depth : Int) (mult : Nat)
    (mults : List (Int × Nat)), 0 < mult ∨ '+' ∈ w →
    multsAcc w depth mult mults ≠ [] := by
  induction w with
  | nil =>
    intro depth mult mults h
    rcases h with h | h
    · simp only [multsAcc]
      rw [if_pos h]
      exact dictSet_ne_nil _ _ _
    · simp at h
  | cons c w' ih =>
    intro depth mult mults h
    simp only [multsAcc]
    split
    · rename_i hc
      subst hc
      rcases h with h | h
      · refine multsAcc_ne_nil_keep _ _ _ _ ?_
        rw [if_pos h]
        exact dictSet_ne_nil _ _ _
      · rcases List.mem_cons.mp h with h2 | h2
        · exact absurd h2.symm (by decide)
        · exact ih _ _ _ (Or.inr h2)
    · rename_i hc
      exact ih _ _ _ (Or.inl (Nat.succ_pos mult))

theorem length_ge_two_of_two_mem {w : List Char} (h1 : '+' ∈ w)
    (h2 : '>' ∈ w) : 2 ≤ w.length := by
  cases w with
  | nil => simp at h1
  | cons a t =>
    cases t with
    | nil =>
      rcases List.mem_singleton.mp h1 with rfl
      rcases List.mem_singleton.mp h2 with h2
      exact absurd h2 (by decide)
    | cons b t2 => simp [Nat.succ_le_succ, Nat.le_add_left]

/-- C5 (amended): whenever the source at a `[` matches the full
copy/multiply pattern AND at least one character follows the closing `]`,
`_is_copyloop` emits one `Copy` opcode carrying the offset-to-multiplier
table and consumes the entire bracketed region (`|w| + d + 3` characters,
up to and including the `]`).  When the `]` is the last character of the
source the recognizer instead rejects (see the counterexample). -/
theorem copyloop_amended (code : List Char) (index : Nat) (mptr : Int)
    (w : List Char) (d : Nat) (rest : List Char)
    (hshape : CopyShape code index w d rest) (hrest : rest ≠ []) :
    _is_copyloop code index mptr =
      ([⟨OP_COPY, mptr, 0, multsAcc w 0 0 []⟩], w.length + d + 3) := by
  obtain ⟨hdrop, hw, hcnt, hd, hplus⟩ := hshape
  have hgt : '>' ∈ w := by
    rw [← List.count_pos_iff]
    omega
  have hw2 : 2 ≤ w.length := length_ge_two_of_two_mem hplus hgt
  have hlendrop : (code.drop index).length = code.length - index :=
    List.length_drop index code
  rw [hdrop] at hlendrop
  simp only [List.length_cons, List.length_append,
    List.length_replicate] at hlendrop
  have hL : code.length = index + w.length + d + rest.length + 3 := by omega
  have hrestlen : 1 ≤ rest.length := by
    cases rest with
    | nil => exact absurd rfl hrest
    | cons a t => simp
  have hminus : code.getD (index + 1) ' ' = '-' := by
    rw [getD_eq_headD_drop]
    rw [show index + 1 = index + 1 from rfl, ← List.drop_drop, hdrop]
    rfl
  have hdrop2 : code.drop (index + 2) =
      w ++ (List.replicate d '<' ++ ']' :: rest) := by
    rw [← List.drop_drop, hdrop]
    rfl
  obtain ⟨d', rfl⟩ : ∃ d', d = d' + 1 := ⟨d - 1, by omega⟩
  have hsplit : w ++ (List.replicate (d' + 1) '<' ++ ']' :: rest) =
      w ++ '<' :: (List.replicate d' '<' ++ ']' :: rest) := by
    rw [List.replicate_succ, List.cons_append]
  have hne : multsAcc w 0 0 [] ≠ [] := multsAcc_ne_nil w 0 0 [] (Or.inr hplus)
  have hscan : copyScan (code.drop (index + 2)) (index + 2) 0 0 [] =
      some (index + 2 + w.length, ((d' : Int) + 1), multsAcc w 0 0 []) := by
    rw [hdrop2, hsplit, copyScan_run w (index + 2) 0 0 [] _ hw, hcnt]
    simp only [Option.some.injEq, Prod.mk.injEq, eq_self_iff_true, and_true,
      true_and]
    push_cast
    ring
  have hdrop3 : code.drop (index + 2 + w.length) =
      List.replicate (d' + 1) '<' ++ ']' :: rest := by
    rw [← List.drop_drop, hdrop2, List.drop_left]
  have hclose : closeScan (code.drop (index + 2 + w.length))
      (index + 2 + w.length) ((d' : Int) + 1) =
      some (index + 2 + w.length + (d' + 1), 0) := by
    rw [hdrop3, closeScan_run (d' + 1) (index + 2 + w.length) _ rest]
    simp only [Option.some.injEq, Prod.mk.injEq, eq_self_iff_true, true_and]
    push_cast
    ring
  have hcond1 : ((multsAcc w 0 0 []).isEmpty = true ∨ ((d' : Int) + 1) = 0 ∨
      index + 2 + w.length = code.length - 1) = False := by
    simp only [eq_iff_iff, iff_false]
    push_neg
    refine ⟨?_, by omega, by omega⟩
    simpa [List.isEmpty_eq_false] using hne
  have hcond2 : ((0 : Int) ≠ 0 ∨
      index + 2 + w.length + (d' + 1) = code.length - 1) = False := by
    simp only [eq_iff_iff, iff_false]
    push_neg
    exact ⟨rfl, by omega⟩
  unfold _is_copyloop
  rw [if_neg (by omega)]
  rw [if_neg (by rw [hminus]; simp)]
  rw [hscan]
  simp only [hcond1, if_false, hclose, hcond2]
  simp only [Prod.mk.injEq, List.cons.injEq, eq_self_iff_true, and_true,
    true_and]
  omega

/-- C5 counterexample: `[->+<]` is a complete copy/multiply pattern
(`w = ">+"`, one right-move, multiplier 1, drift returns to zero) whose
closing `]` is the last character of the source; the claim demands a `Copy`
opcode consuming 6 characters, but `_is_copyloop` reports no match. -/
theorem copyloop_rejects_final_bracket :
    CopyShape ['[', '-', '>', '+', '<', ']'] 0 ['>', '+'] 1 [] ∧
    _is_copyloop ['[', '-', '>', '+', '<', ']'] 0 0 = ([], 0) := by
  constructor
  · exact ⟨rfl, by decide, by decide, by decide, by decide⟩
  · rfl

/-- Witness for C5 at the concrete source `[->+<]+`. -/
theorem copyloop_amended_w :
    _is_copyloop ['[', '-', '>', '+', '<', ']', '+'] 0 0 =
      ([⟨OP_COPY, 0, 0, multsAcc ['>', '+'] 0 0 []⟩],
        (['>', '+'] : List Char).length + 1 + 3) :=
  copyloop_amended ['[', '-', '>', '+', '<', ']', '+'] 0 0 ['>', '+'] 1 ['+']
    ⟨rfl, by decide, by decide, by decide, by decide⟩ (by decide)

/-! ## C8: the unmatched-bracket errors of `parse` -/

theorem _is_clearloop_snd (code : List Char) (index : Nat) (mptr : Int) :
    (_is_clearloop code index mptr).2 = (_is_clearloop code index 0).2 := by
  simp only [_is_clearloop]
  split_ifs <;> rfl

theorem _is_scanloop_snd (code : List Char) (index : Nat) (mptr : Int) :
    (_is_scanloop code index mptr).2 = (_is_scanloop code index 0).2 := by
  simp only [_is_scanloop]
  split_ifs <;> rfl

theorem _is_copyloop_snd (code : List Char) (index : Nat) (mptr : Int) :
    (_is_copyloop code index mptr).2 = (_is_copyloop code index 0).2 := by
  by_cases h1 : (index : Int) > (code.length : Int) - 6
  · simp only [_is_copyloop, if_pos h1]
  · by_cases h2 : code.getD (index + 1) ' ' ≠ '-'
    · simp only [_is_copyloop, if_neg h1, if_pos h2]
    · simp only [_is_copyloop, if_neg h1, if_neg h2]
      cases hs : copyScan (code.drop (index + 2)) (index + 2) 0 0 [] with
      | none => rfl
      | some t =>
        obtain ⟨i, depth, mults⟩ := t
        simp only []
        by_cases h3 : (mults.isEmpty = true ∨ depth = 0 ∨ i = code.length - 1)
        · rw [if_pos h3, if_pos h3]
        · rw [if_neg h3, if_neg h3]
          cases hc : closeScan (code.drop i) i depth with
          | none => rfl
          | some t2 =>
            obtain ⟨i2, d2⟩ := t2
            simp only []
            by_cases h4 : (d2 ≠ 0 ∨ i2 = code.length - 1)
            · rw [if_pos h4, if_pos h4]
            · rw [if_neg h4, if_neg h4]

/-- The number of source characters a loop optimizer consumes does not
depend on the accumulated pointer drift (`mptr` only enters the emitted
opcodes). -/
theorem run_loop_optimizers_snd (code : List Char) (index : Nat)
    (mptr : Int) :
    (run_loop_optimizers code index mptr).2 =
      (run_loop_optimizers code index 0).2 := by
  have e1 := _is_clearloop_snd code index mptr
  have e2 := _is_copyloop_snd code index mptr
  have e3 := _is_scanloop_snd code index mptr
  simp only [run_loop_optimizers]
  by_cases h1 : (_is_clearloop code index 0).2 > 0
  · rw [if_pos (by rw [e1]; exact h1), if_pos h1, e1]
  · rw [if_neg (by rw [e1]; exact h1), if_neg h1]
    by_cases h2 : (_is_copyloop code index 0).2 > 0
    · rw [if_pos (by rw [e2]; exact h2), if_pos h2, e2]
    · rw [if_neg (by rw [e2]; exact h2), if_neg h2]
      by_cases h3 : (_is_scanloop code index 0).2 > 0
      · rw [if_pos (by rw [e3]; exact h3), if_pos h3, e3]
      · rw [if_neg (by rw [e3]; exact h3), if_neg h3]

theorem parseLoop_outcome (code : List Char) : ∀ (fuel pc : Nat)
    (mptr : Int) (stack : List Nat) (ops : List Opcode),
    outcomeOf (parseLoop code fuel pc mptr stack ops) =
      bracketScan code fuel pc stack.length := by
  intro fuel
  induction fuel with
  | zero => intro pc mptr stack ops; rfl
  | succ fuel ih =>
    intro pc mptr stack ops
    simp only [parseLoop, bracketScan]
    by_cases h : pc < code.length
    · rw [dif_pos h, dif_pos h]
      cases hop : instr_to_opcode (code.get ⟨pc, h⟩) with
      | none => rfl
      | some opcode =>
        simp only []
        by_cases h6 : opcode = OP_OPEN_JMP
        · rw [if_pos h6, if_pos h6]
          have e := run_loop_optimizers_snd code pc mptr
          by_cases hn : (run_loop_optimizers code pc 0).2 > 0
          · rw [if_pos (by rw [e]; exact hn), if_pos hn, e]
            exact ih _ _ _ _
          · rw [if_neg (by rw [e]; exact hn), if_neg hn]
            exact ih _ _ _ _
        · rw [if_neg h6, if_neg h6]
          by_cases h7 : opcode = OP_CLOSE_JMP
          · rw [if_pos h7, if_pos h7]
            cases stack with
            | nil => rfl
            | cons k rest =>
              rw [show (k :: rest).length = rest.length + 1 from rfl]
              exact ih _ _ _ _
          · rw [if_neg h7, if_neg h7]
            by_cases h45 : opcode = OP_IN ∨ opcode = OP_OUT
            · rw [if_pos h45, if_pos h45]
              exact ih _ _ _ _
            · rw [if_neg h45, if_neg h45]
              by_cases h3 : opcode = OP_LEFT
              · rw [if_pos h3]
                exact ih _ _ _ _
              · rw [if_neg h3]
                by_cases h2 : opcode = OP_RIGHT
                · rw [if_pos h2]
                  exact ih _ _ _ _
                · rw [if_neg h2]
                  exact ih _ _ _ _
    · rw [dif_neg h, dif_neg h]
      cases stack with
      | nil => rfl
      | cons k rest =>
        rw [if_neg (by simp [List.isEmpty]), if_neg (by simp)]
        rfl

theorem outcomeOf_eq_unmatchedClose {r : Except ParseErr (List Opcode)} :
    outcomeOf r = .unmatchedClose ↔ r = .error .unmatchedClose := by
  cases r with
  | ok ops => simp [outcomeOf]
  | error e => cases e <;> simp [outcomeOf]

theorem outcomeOf_eq_unmatchedOpen {r : Except ParseErr (List Opcode)} :
    outcomeOf r = .unmatchedOpen ↔ r = .error .unmatchedOpen := by
  cases r with
  | ok ops => simp [outcomeOf]
  | error e => cases e <;> simp [outcomeOf]

/-- C8: `parse` raises the unmatched-`]` error exactly when the
left-to-right pass reaches a `]` with an empty open-bracket stack, and the
unmatched-`[` error exactly when the pass reaches the end of the sanitized
source with a nonempty stack (`bracketCheck` is that pass, tracking only
the stack height); in either case the result is an `Except.error`, so no
IR program is returned and the failure precedes any execution. -/
theorem parse_unmatched_errors (source : List Char) :
    (parse source = .error .unmatchedClose ↔
      bracketCheck (cleanup source) = .unmatchedClose) ∧
    (parse source = .error .unmatchedOpen ↔
      bracketCheck (cleanup source) = .unmatchedOpen) := by
  have key : outcomeOf (parse source) = bracketCheck (cleanup source) := by
    unfold parse bracketCheck
    exact parseLoop_outcome (cleanup source) _ 0 0 [] []
  constructor
  · rw [← key]
    exact outcomeOf_eq_unmatchedClose.symm
  · rw [← key]
    exact outcomeOf_eq_unmatchedOpen.symm

/-- Witness for C8 at the concrete source `"]"`. -/
theorem parse_unmatched_errors_w :
    (parse [']'] = .error .unmatchedClose ↔
      bracketCheck (cleanup [']']) = .unmatchedClose) ∧
    (parse [']'] = .error .unmatchedOpen ↔
      bracketCheck (cleanup [']']) = .unmatchedOpen) :=
  parse_unmatched_errors [']']

/-! ## C4: brace pairing of the emitted IR -/

theorem opAt_append_lt (ops xs : List Opcode) (i : Nat)
    (h : i < ops.length) : opAt (ops ++ xs) i = opAt ops i := by
  unfold opAt
  rw [List.getD_eq_getElem?_getD, List.getD_eq_getElem?_getD,
    List.getElem?_append, if_pos h]

theorem opAt_append_len (ops : List Opcode) (x : Opcode) :
    opAt (ops ++ [x]) ops.length = x := by
  unfold opAt
  rw [List.getD_eq_getElem?_getD, List.getElem?_append_right (Nat.le_refl _)]
  simp

theorem setArg_length (ops : List Opcode) (k : Nat) (v : Int) :
    (setArg ops k v).length = ops.length := by
  induction ops generalizing k with
  | nil => rfl
  | cons x rest ih =>
    cases k with
    | zero => rfl
    | succ k => simp [setArg, ih]

theorem opAt_setArg_self (ops : List Opcode) (k : Nat) (v : Int)
    (h : k < ops.length) :
    opAt (setArg ops k v) k = { opAt ops k with arg := v } := by
  induction ops generalizing k with
  | nil => simp at h
  | cons x rest ih =>
    cases k with
    | zero => rfl
    | succ k =>
      simp only [setArg, opAt, List.getD_cons_succ]
      exact ih k (by simpa using h)

theorem opAt_setArg_ne (ops : List Opcode) (k i : Nat) (v : Int)
    (h : k ≠ i) : opAt (setArg ops k v) i = opAt ops i := by
  induction ops generalizing k i with
  | nil => rfl
  | cons x rest ih =>
    cases k with
    | zero =>
      cases i with
      | zero => exact absurd rfl h
      | succ i => simp [setArg, opAt, List.getD_cons_succ]
    | succ k =>
      cases i with
      | zero => simp [setArg, opAt, List.getD_cons_zero]
      | succ i =>
        simp only [setArg, opAt, List.getD_cons_succ]
        exact ih k i (by omega)

theorem PInv_nil : PInv [] [] := by
  refine ⟨List.Pairwise.nil, ?_, ?_, ?_⟩
  · intro k hk
    simp at hk
  · intro i j _ hopen
    obtain ⟨hlt, _⟩ := hopen
    simp at hlt
  · intro i1 j1 i2 j2 _ _ h1 _ _ _
    obtain ⟨hlt, _⟩ := h1
    simp at hlt

theorem IsOpenAt_of_append (ops xs : List Opcode) {i : Nat} (j : Nat)
    (hi : i < ops.length) :
    IsOpenAt (ops ++ xs) i j ↔ IsOpenAt ops i j := by
  unfold IsOpenAt
  rw [opAt_append_lt ops xs i hi]
  constructor
  · rintro ⟨_, h2, h3⟩
    exact ⟨hi, h2, h3⟩
  · rintro ⟨_, h2, h3⟩
    refine ⟨?_, h2, h3⟩
    rw [List.length_append]
    omega

theorem PInv_append (stack : List Nat) (ops : List Opcode) (x : Opcode)
    (hinv : PInv stack ops) (hx : x.op ≠ OP_OPEN_JMP) :
    PInv stack (ops ++ [x]) := by
  have hopen_lt : ∀ i j, IsOpenAt (ops ++ [x]) i j →
      i < ops.length ∧ IsOpenAt ops i j := by
    intro i j hopen
    obtain ⟨hi, hop, harg⟩ := hopen
    have hilt : i < ops.length := by
      rcases Nat.lt_or_ge i ops.length with hl | hl
      · exact hl
      · exfalso
        have : i = ops.length := by
          rw [List.length_append] at hi
          simp at hi
          omega
        subst this
        rw [opAt_append_len] at hop
        exact hx hop
    refine ⟨hilt, hilt, ?_, ?_⟩ <;>
      rw [← opAt_append_lt ops [x] i hilt] <;> assumption
  refine ⟨hinv.sorted, ?_, ?_, ?_⟩
  · intro k hk
    obtain ⟨h1, h2⟩ := hinv.mem k hk
    refine ⟨by rw [List.length_append]; omega, ?_⟩
    rw [opAt_append_lt _ _ _ h1]
    exact h2
  · intro i j hni hopen
    obtain ⟨hilt, hopen2⟩ := hopen_lt i j hopen
    obtain ⟨⟨hij, hjl, hcl, harg⟩, hstk⟩ := hinv.pairs i j hni hopen2
    refine ⟨⟨hij, by rw [List.length_append]; omega, ?_, ?_⟩, hstk⟩ <;>
      rw [opAt_append_lt _ _ _ hjl] <;> assumption
  · intro i1 j1 i2 j2 hn1 hn2 h1 h2 hlt hin
    obtain ⟨_, h1b⟩ := hopen_lt _ _ h1
    obtain ⟨_, h2b⟩ := hopen_lt _ _ h2
    exact hinv.nested i1 j1 i2 j2 hn1 hn2 h1b h2b hlt hin

theorem PInv_append_list (stack : List Nat) (ops xs : List Opcode)
    (hinv : PInv stack ops) (hxs : ∀ x ∈ xs, x.op ≠ OP_OPEN_JMP) :
    PInv stack (ops ++ xs) := by
  induction xs generalizing ops with
  | nil => simpa using hinv
  | cons x rest ih =>
    have hr : ops ++ x :: rest = (ops ++ [x]) ++ rest := by simp
    rw [hr]
    exact ih (ops ++ [x])
      (PInv_append stack ops x hinv (hxs x (List.mem_cons_self x rest)))
      (fun y hy => hxs y (List.mem_cons_of_mem _ hy))

theorem PInv_open (stack : List Nat) (ops : List Opcode)
    (hinv : PInv stack ops) :
    PInv (ops.length :: stack) (ops ++ [⟨OP_OPEN_JMP, 0, 0, []⟩]) := by
  have hx : opAt (ops ++ [⟨OP_OPEN_JMP, 0, 0, []⟩]) ops.length =
      ⟨OP_OPEN_JMP, 0, 0, []⟩ := opAt_append_len ops _
  refine ⟨?_, ?_, ?_, ?_⟩
  · refine List.Pairwise.cons ?_ hinv.sorted
    intro b hb
    exact (hinv.mem b hb).1
  · intro k hk
    rcases List.mem_cons.mp hk with rfl | hk
    · refine ⟨by rw [List.length_append]; simp, ?_⟩
      rw [hx]
    · obtain ⟨h1, h2⟩ := hinv.mem k hk
      refine ⟨by rw [List.length_append]; omega, ?_⟩
      rw [opAt_append_lt _ _ _ h1]
      exact h2
  · intro i j hni hopen
    have hne : i ≠ ops.length := fun he => hni (he ▸ List.mem_cons_self _ _)
    have hns : i ∉ stack := fun hi => hni (List.mem_cons_of_mem _ hi)
    have hilt : i < ops.length := by
      obtain ⟨hi, _, _⟩ := hopen
      rw [List.length_append] at hi
      simp at hi
      omega
    have hopen2 : IsOpenAt ops i j :=
      (IsOpenAt_of_append ops _ j hilt).mp hopen
    obtain ⟨⟨hij, hjl, hcl, hargc⟩, hstk⟩ := hinv.pairs i j hns hopen2
    refine ⟨⟨hij, by rw [List.length_append]; omega, ?_, ?_⟩, ?_⟩
    · rw [opAt_append_lt _ _ _ hjl]
      exact hcl
    · rw [opAt_append_lt _ _ _ hjl]
      exact hargc
    · intro k hk
      rcases List.mem_cons.mp hk with rfl | hk
      · exact Or.inr hjl
      · exact hstk k hk
  · intro i1 j1 i2 j2 hn1 hn2 h1 h2 hlt hin
    have hi1 : i1 < ops.length := by
      obtain ⟨hi, hop, _⟩ := h1
      rcases Nat.lt_or_ge i1 ops.length with hl | hl
      · exact hl
      · exfalso
        have he : i1 = ops.length := by
          rw [List.length_append] at hi
          simp at hi
          omega
        exact hn1 (he ▸ List.mem_cons_self _ _)
    have hi2 : i2 < ops.length := by
      obtain ⟨hi, hop, _⟩ := h2
      rcases Nat.lt_or_ge i2 ops.length with hl | hl
      · exact hl
      · exfalso
        have he : i2 = ops.length := by
          rw [List.length_append] at hi
          simp at hi
          omega
        exact hn2 (he ▸ List.mem_cons_self _ _)
    exact hinv.nested i1 j1 i2 j2
      (fun hi => hn1 (List.mem_cons_of_mem _ hi))
      (fun hi => hn2 (List.mem_cons_of_mem _ hi))
      ((IsOpenAt_of_append ops _ j1 hi1).mp h1)
      ((IsOpenAt_of_append ops _ j2 hi2).mp h2) hlt hin

theorem PInv_close (k : Nat) (rest : List Nat) (ops : List Opcode)
    (mptr : Int) (hinv : PInv (k :: rest) ops) :
    PInv rest (setArg ops k (ops.length : Int) ++
      [⟨OP_CLOSE_JMP, mptr, (k : Int), []⟩]) := by
  obtain ⟨hkm, hkop⟩ := hinv.mem k (List.mem_cons_self _ _)
  have hsl : (setArg ops k (ops.length : Int)).length = ops.length :=
    setArg_length ops k _
  have hrest_lt : ∀ b ∈ rest, b < k :=
    (List.pairwise_cons.mp hinv.sorted).1
  have hAtk : opAt (setArg ops k (ops.length : Int) ++
      [⟨OP_CLOSE_JMP, mptr, (k : Int), []⟩]) k =
      { opAt ops k with arg := (ops.length : Int) } := by
    rw [opAt_append_lt _ _ _ (by rw [hsl]; exact hkm)]
    exact opAt_setArg_self ops k _ hkm
  have hAtm : opAt (setArg ops k (ops.length : Int) ++
      [⟨OP_CLOSE_JMP, mptr, (k : Int), []⟩]) ops.length =
      ⟨OP_CLOSE_JMP, mptr, (k : Int), []⟩ := by
    have hx := opAt_append_len (setArg ops k (ops.length : Int))
      (⟨OP_CLOSE_JMP, mptr, (k : Int), []⟩ : Opcode)
    rw [hsl] at hx
    exact hx
  have hAti : ∀ i, i < ops.length → i ≠ k →
      opAt (setArg ops k (ops.length : Int) ++
        [⟨OP_CLOSE_JMP, mptr, (k : Int), []⟩]) i = opAt ops i := by
    intro i hi hik
    rw [opAt_append_lt _ _ _ (by rw [hsl]; exact hi)]
    exact opAt_setArg_ne ops k i _ (fun he => hik he.symm)
  have hlen2 : (setArg ops k (ops.length : Int) ++
      [(⟨OP_CLOSE_JMP, mptr, (k : Int), []⟩ : Opcode)]).length =
      ops.length + 1 := by
    rw [List.length_append, hsl]
    rfl
  have classify : ∀ i j, i ∉ rest →
      IsOpenAt (setArg ops k (ops.length : Int) ++
        [⟨OP_CLOSE_JMP, mptr, (k : Int), []⟩]) i j →
      (i = k ∧ j = ops.length) ∨
        (i ≠ k ∧ i ∉ (k :: rest) ∧ i < ops.length ∧ IsOpenAt ops i j) := by
    intro i j hni hopen
    obtain ⟨hi, hop, harg⟩ := hopen
    rw [hlen2] at hi
    by_cases hik : i = k
    · subst hik
      rw [hAtk] at harg
      left
      refine ⟨rfl, ?_⟩
      have : ((j : Int)) = (ops.length : Int) := by
        rw [← harg]
      exact_mod_cast this
    · right
      have him : i ≠ ops.length := by
        intro he
        subst he
        rw [hAtm] at hop
        exact absurd hop (by exact (by decide : ¬OP_CLOSE_JMP = OP_OPEN_JMP))
      have hilt : i < ops.length := by omega
      refine ⟨hik, ?_, hilt, hilt, ?_, ?_⟩
      · intro hmem
        rcases List.mem_cons.mp hmem with he | hmem2
        · exact hik he
        · exact hni hmem2
      · rw [← hAti i hilt hik]
        exact hop
      · rw [← hAti i hilt hik]
        exact harg
  refine ⟨(List.pairwise_cons.mp hinv.sorted).2, ?_, ?_, ?_⟩
  · intro b hb
    obtain ⟨h1, h2⟩ := hinv.mem b (List.mem_cons_of_mem _ hb)
    have hbk : b ≠ k := by
      have := hrest_lt b hb
      omega
    refine ⟨by omega, ?_⟩
    rw [hAti b h1 hbk]
    exact h2
  · intro i j hni hopen
    rcases classify i j hni hopen with ⟨rfl, rfl⟩ | ⟨hik, hnis, hilt, hopen2⟩
    · refine ⟨⟨hkm, by omega, ?_, ?_⟩, ?_⟩
      · rw [hAtm]
      · rw [hAtm]
      · intro b hb
        exact Or.inl (hrest_lt b hb)
    · obtain ⟨⟨hij, hjl, hcl, hargc⟩, hstk⟩ := hinv.pairs i j hnis hopen2
      have hjk : j ≠ k := by
        intro he
        subst he
        rw [hkop] at hcl
        exact absurd hcl (by decide)
      refine ⟨⟨hij, by omega, ?_, ?_⟩, ?_⟩
      · rw [hAti j hjl hjk]
        exact hcl
      · rw [hAti j hjl hjk]
        exact hargc
      · intro b hb
        exact hstk b (List.mem_cons_of_mem _ hb)
  · intro i1 j1 i2 j2 hn1 hn2 h1 h2 hlt hin
    rcases classify i1 j1 hn1 h1 with ⟨he1, hf1⟩ | ⟨hik1, hnis1, hilt1, ho1⟩
    · rcases classify i2 j2 hn2 h2 with ⟨he2, hf2⟩ | ⟨hik2, hnis2, hilt2, ho2⟩
      · omega
      · obtain ⟨⟨_, hjl2, _, _⟩, _⟩ := hinv.pairs i2 j2 hnis2 ho2
        omega
    · rcases classify i2 j2 hn2 h2 with ⟨he2, hf2⟩ | ⟨hik2, hnis2, hilt2, ho2⟩
      · obtain ⟨_, hstk1⟩ := hinv.pairs i1 j1 hnis1 ho1
        rcases hstk1 k (List.mem_cons_self _ _) with hc | hc <;> omega
      · obtain ⟨⟨_, hjl2, _, _⟩, _⟩ := hinv.pairs i2 j2 hnis2 ho2
        exact hinv.nested i1 j1 i2 j2 hnis1 hnis2 ho1 ho2 hlt hin

theorem _is_clearloop_no_open (code : List Char) (index : Nat) (mptr : Int) :
    ∀ x ∈ (_is_clearloop code index mptr).1, x.op ≠ OP_OPEN_JMP := by
  intro x hx
  simp only [_is_clearloop] at hx
  split_ifs at hx
  · rw [List.mem_singleton] at hx
    subst hx
    exact (by decide : OP_CLEAR ≠ OP_OPEN_JMP)
  · simp at hx
  · simp at hx

theorem _is_scanloop_no_open (code : List Char) (index : Nat) (mptr : Int) :
    ∀ x ∈ (_is_scanloop code index mptr).1, x.op ≠ OP_OPEN_JMP := by
  intro x hx
  simp only [_is_scanloop] at hx
  split_ifs at hx
  · rw [List.mem_singleton] at hx
    subst hx
    exact (by decide : OP_SCANR ≠ OP_OPEN_JMP)
  · rw [List.mem_singleton] at hx
    subst hx
    exact (by decide : OP_SCANL ≠ OP_OPEN_JMP)
  · simp at hx
  · simp at hx

theorem _is_copyloop_no_open (code : List Char) (index : Nat) (mptr : Int) :
    ∀ x ∈ (_is_copyloop code index mptr).1, x.op ≠ OP_OPEN_JMP := by
  intro x hx
  simp only [_is_copyloop] at hx
  by_cases h1 : (index : Int) > (code.length : Int) - 6
  · rw [if_pos h1] at hx
    simp at hx
  · rw [if_neg h1] at hx
    by_cases h2 : code.getD (index + 1) ' ' ≠ '-'
    · rw [if_pos h2] at hx
      simp at hx
    · rw [if_neg h2] at hx
      cases hs : copyScan (code.drop (index + 2)) (index + 2) 0 0 [] with
      | none =>
        rw [hs] at hx
        simp at hx
      | some t =>
        obtain ⟨i, depth, mults⟩ := t
        rw [hs] at hx
        simp only [] at hx
        by_cases h3 : (mults.isEmpty = true ∨ depth = 0 ∨
            i = code.length - 1)
        · rw [if_pos h3] at hx
          simp at hx
        · rw [if_neg h3] at hx
          cases hc : closeScan (code.drop i) i depth with
          | none =>
            rw [hc] at hx
            simp at hx
          | some t2 =>
            obtain ⟨i2, d2⟩ := t2
            rw [hc] at hx
            simp only [] at hx
            by_cases h4 : (d2 ≠ 0 ∨ i2 = code.length - 1)
            · rw [if_pos h4] at hx
              simp at hx
            · rw [if_neg h4] at hx
              rw [List.mem_singleton] at hx
              subst hx
              exact (by decide : OP_COPY ≠ OP_OPEN_JMP)

theorem run_loop_optimizers_no_open (code : List Char) (index : Nat)
    (mptr : Int) :
    ∀ x ∈ (run_loop_optimizers code index mptr).1, x.op ≠ OP_OPEN_JMP := by
  intro x hx
  simp only [run_loop_optimizers] at hx
  by_cases h1 : (_is_clearloop code index mptr).2 > 0
  · rw [if_pos h1] at hx
    exact _is_clearloop_no_open code index mptr x hx
  · rw [if_neg h1] at hx
    by_cases h2 : (_is_copyloop code index mptr).2 > 0
    · rw [if_pos h2] at hx
      exact _is_copyloop_no_open code index mptr x hx
    · rw [if_neg h2] at hx
      by_cases h3 : (_is_scanloop code index mptr).2 > 0
      · rw [if_pos h3] at hx
        exact _is_scanloop_no_open code index mptr x hx
      · rw [if_neg h3] at hx
        simp at hx

theorem parseLoop_pairing (code : List Char) : ∀ (fuel pc : Nat)
    (mptr : Int) (stack : List Nat) (ops res : List Opcode),
    PInv stack ops → parseLoop code fuel pc mptr stack ops = .ok res →
    (∀ i j, IsOpenAt res i j → ClosesAt res j i) ∧ WellNested res := by
  intro fuel
  induction fuel with
  | zero =>
    intro pc mptr stack ops res _ h
    exact absurd h (by simp [parseLoop])
  | succ fuel ih =>
    intro pc mptr stack ops res hinv h
    simp only [parseLoop] at h
    by_cases hpc : pc < code.length
    · rw [dif_pos hpc] at h
      cases hop : instr_to_opcode (code.get ⟨pc, hpc⟩) with
      | none =>
        rw [hop] at h
        exact absurd h (by simp)
      | some opcode =>
        rw [hop] at h
        simp only [] at h
        by_cases h6 : opcode = OP_OPEN_JMP
        · rw [if_pos h6] at h
          by_cases hn : (run_loop_optimizers code pc mptr).2 > 0
          · rw [if_pos hn] at h
            exact ih _ _ _ _ _ (PInv_append_list _ _ _ hinv
              (run_loop_optimizers_no_open code pc mptr)) h
          · rw [if_neg hn] at h
            by_cases hm : mptr ≠ 0
            · rw [if_pos hm] at h
              exact ih _ _ _ _ _ (PInv_open _ _ (PInv_append _ _ _ hinv
                (by exact (by decide : OP_MOVE ≠ OP_OPEN_JMP)))) h
            · rw [if_neg hm] at h
              exact ih _ _ _ _ _ (PInv_open _ _ hinv) h
        · rw [if_neg h6] at h
          by_cases h7 : opcode = OP_CLOSE_JMP
          · rw [if_pos h7] at h
            cases stack with
            | nil => exact absurd h (by simp)
            | cons k rest =>
              simp only [] at h
              exact ih _ _ _ _ _ (PInv_close k rest ops mptr hinv) h
          · rw [if_neg h7] at h
            by_cases h45 : opcode = OP_IN ∨ opcode = OP_OUT
            · rw [if_pos h45] at h
              exact ih _ _ _ _ _ (PInv_append _ _ _ hinv h6) h
            · rw [if_neg h45] at h
              by_cases h3 : opcode = OP_LEFT
              · rw [if_pos h3] at h
                exact ih _ _ _ _ _ hinv h
              · rw [if_neg h3] at h
                by_cases h2 : opcode = OP_RIGHT
                · rw [if_pos h2] at h
                  exact ih _ _ _ _ _ hinv h
                · rw [if_neg h2] at h
                  exact ih _ _ _ _ _ (PInv_append _ _ _ hinv h6) h
    · rw [dif_neg hpc] at h
      cases stack with
      | nil =>
        simp only [List.isEmpty_nil, if_true] at h
        injection h with h2
        subst h2
        constructor
        · intro i j hopen
          exact (hinv.pairs i j (by simp) hopen).1
        · intro i1 j1 i2 j2 ho1 ho2 hlt hin
          exact hinv.nested i1 j1 i2 j2 (by simp) (by simp) ho1 ho2 hlt hin
      | cons k rest =>
        exact absurd h (by simp [List.isEmpty])

/-- C4: in every IR program `parse` returns without raising, for every
`Open` opcode at index `i` with `arg = j`, the opcode at index `j` is a
`Close` with `arg = i` (and `i < j`), and the pairing is well-nested. -/
theorem parse_brace_pairing (source : List Char) (ops : List Opcode)
    (h : parse source = .ok ops) :
    (∀ i j, IsOpenAt ops i j → ClosesAt ops j i) ∧ WellNested ops :=
  parseLoop_pairing (cleanup source) ((cleanup source).length + 1) 0 0 [] []
    ops PInv_nil h

/-- Witness for C4: parsing `[[]]` pairs indices (0,3); projected through
the theorem at that concrete source. -/
theorem parse_brace_pairing_w :
    ClosesAt [⟨OP_OPEN_JMP, 0, 3, []⟩, ⟨OP_OPEN_JMP, 0, 2, []⟩,
      ⟨OP_CLOSE_JMP, 0, 1, []⟩, ⟨OP_CLOSE_JMP, 0, 0, []⟩] 3 0 :=
  (parse_brace_pairing ['[', '[', ']', ']'] _ rfl).1 0 3
    ⟨by decide, by decide, by decide⟩

/-! ## C2: the `ScanR` execution bug -/

/-- C2 (code bug): `+>+>[>].` parses to
`[Add(0,1), Add(1,1), ScanR(offset 1), Out(0)]`; when the `ScanR` executes,
the tape is `1 1 0 ...` and the pointer (after the offset) is at cell 2.
The claimed semantics advances right until a zero cell, i.e. stays at cell
2 whose value is 0, so the program would print `\x00` — but the
interpreter prints `\x01`: its `OP_SCANR` code walks LEFT while the cell
value differs from 1 and ends on cell 1. -/
theorem scanr_executes_leftward :
    interpRunOut ['+', '>', '+', '>', '[', '>', ']', '.'] (some []) 50 =
      some [1] ∧
    scanRSpec demoTape 10 2 = some 2 ∧ demoTape 2 = 0 :=
  ⟨rfl, rfl, rfl⟩

/-! ## C1: back-end equivalence -/

/-- C1 (code bug): the BF program `+>+[>].` terminates within 50 steps on
both back-ends and its data pointer stays inside `[0, 30000)`, yet the
interpreter path prints `\x01` while the JIT path (plain BF semantics)
prints `\x00`: the interpreter's broken `OP_SCANR` (see C2) leaves the
pointer on cell 1 instead of the first zero cell 2. -/
theorem backend_divergence_on_scan :
    interpRunOut ['+', '>', '+', '[', '>', ']', '.'] (some []) 50 =
      some [1] ∧
    jitRunOut ['+', '>', '+', '[', '>', ']', '.'] [] 50 = some [0] ∧
    (some [1] : Option (List Nat)) ≠ some [0] :=
  ⟨rfl, rfl, by decide⟩

/-! ## C3: `In` on end-of-input or NUL -/

/-- C3 counterexample: on the JIT path, running `+,` with the single input
byte NUL leaves cell 0 at 0: the `,` stored the NUL, destroying the 1 the
`+` had written (running just `+` leaves the cell at 1).  The claim's
"the current tape cell is left unchanged" is false on the JIT path. -/
theorem jit_in_nul_stores :
    jitMem0 ['+', ','] [0] 10 = some 0 ∧ jitMem0 ['+'] [0] 10 = some 1 :=
  ⟨rfl, rfl⟩

/-- C3 (amended): on the interpreter path an `In` whose read hits
end-of-input or yields a NUL byte leaves the tape unchanged (both buffered
and streaming input); on the JIT path the `,` lowering stores the read
byte unconditionally (`getchar` is declared to return `i8`, so C's EOF
value -1 arrives as the byte 255), so a NUL read zeroes the cell there. -/
theorem in_eof_nul_amended :
    (∀ (ops : List Opcode) (flag : Bool) (st st2 : EvalState) (op : Opcode),
      pyListGet ops st.pc = some op → op.op = OP_IN →
      (st.stdinBuf = some [] ∨ (∃ r, st.stdinBuf = some (0 :: r)) ∨
        (st.stdinBuf = none ∧ (st.world = [] ∨ ∃ r, st.world = 0 :: r))) →
      evalStep ops flag st = .ok st2 → st2.memory = st.memory) ∧
    (∀ (src : List Char) (st st2 : JitState),
      0 ≤ st.p → st.p < 30000 → jitStep src st ',' = .ok st2 →
      st2.memory = fun m => if m = st.p.toNat then
        (match st.input with | [] => 255 | b :: _ => b % 256)
        else st.memory m) := by
  constructor
  · intro ops flag st st2 op hfetch hop5 hread he
    unfold evalStep at he
    rw [hfetch] at he
    simp only [] at he
    rw [hop5] at he
    norm_num [OP_MOVE, OP_ADD, OP_SUB, OP_OPEN_JMP, OP_CLOSE_JMP, OP_OUT,
      OP_IN] at he
    rcases hread with hb | ⟨r, hb⟩ | ⟨hb, hw | ⟨r, hw⟩⟩ <;>
      simp only [doRead, hb] at he
    · injection he with he2
      subst he2
      rfl
    · simp only [gt_iff_lt, Nat.lt_irrefl, if_false] at he
      injection he with he2
      subst he2
      rfl
    · simp only [hw] at he
      injection he with he2
      subst he2
      rfl
    · simp only [hw] at he
      simp only [gt_iff_lt, Nat.lt_irrefl, if_false] at he
      injection he with he2
      subst he2
      rfl
  · intro src st st2 hp1 hp2 he
    unfold jitStep at he
    rw [if_neg (by decide), if_neg (by decide), if_neg (by decide),
      if_neg (by decide), if_pos rfl, if_pos ⟨hp1, hp2⟩] at he
    injection he with he2
    subst he2
    rfl

/-- Witness for C3 at the concrete states: the interpreter `In` reading a
NUL leaves the tape untouched; the JIT `,` overwrites cell 0 with the
NUL. -/
theorem in_eof_nul_amended_w :
    inDemoSt2.memory = inDemoSt.memory ∧
    jitDemoSt2.memory = fun m => if m = 0 then 0 else jitDemoSt.memory m :=
  ⟨in_eof_nul_amended.1 [⟨OP_IN, 0, 0, []⟩] true inDemoSt inDemoSt2
      ⟨OP_IN, 0, 0, []⟩ rfl rfl (Or.inr (Or.inl ⟨[], rfl⟩)) rfl,
    in_eof_nul_amended.2 ['+', ','] jitDemoSt jitDemoSt2 (by decide)
      (by decide) rfl⟩

/-! ## C10: determinism of buffered evaluation -/

theorem doRead_some (mem : Nat → Nat) (pc mptr : Int)
    (sb w ob sob : List Nat) :
    doRead ⟨mem, pc, mptr, some sb, w, ob, sob⟩ =
      (sb.head?, ⟨mem, pc, mptr, some sb.tail, w, ob, sob⟩) := by
  cases sb <;> rfl

theorem evalStep_setWorld (ops : List Opcode) (flag : Bool)
    (mem : Nat → Nat) (pc mptr : Int) (sb wld w ob sob : List Nat) :
    evalStep ops flag ⟨mem, pc, mptr, some sb, w, ob, sob⟩ =
      (evalStep ops flag ⟨mem, pc, mptr, some sb, wld, ob, sob⟩).map
        (setWorld w) := by
  simp only [evalStep, doRead_some]
  cases hfetch : pyListGet ops pc with
  | none => rfl
  | some op =>
    simp only []
    by_cases h8 : op.op = OP_MOVE
    · rw [if_pos h8, if_pos h8]
      rfl
    · rw [if_neg h8, if_neg h8]
      by_cases h0 : op.op = OP_ADD
      · rw [if_pos h0, if_pos h0]
        cases memRead mem (mptr + op.offset) with
        | error e => rfl
        | ok v =>
          simp only []
          cases memWrite mem (mptr + op.offset)
              (((v : Int) + op.arg).emod 256).toNat with
          | error e => rfl
          | ok mem2 => rfl
      · rw [if_neg h0, if_neg h0]
        by_cases h1 : op.op = OP_SUB
        · rw [if_pos h1, if_pos h1]
          cases memRead mem (mptr + op.offset) with
          | error e => rfl
          | ok v =>
            simp only []
            cases memWrite mem (mptr + op.offset)
                (((v : Int) - op.arg).emod 256).toNat with
            | error e => rfl
            | ok mem2 => rfl
        · rw [if_neg h1, if_neg h1]
          by_cases h6 : op.op = OP_OPEN_JMP
          · rw [if_pos h6, if_pos h6]
            cases memRead mem (mptr + op.offset) with
            | error e => rfl
            | ok v => rfl
          · rw [if_neg h6, if_neg h6]
            by_cases h7 : op.op = OP_CLOSE_JMP
            · rw [if_pos h7, if_pos h7]
              cases memRead mem (mptr + op.offset) with
              | error e => rfl
              | ok v => rfl
            · rw [if_neg h7, if_neg h7]
              by_cases h4 : op.op = OP_OUT
              · rw [if_pos h4, if_pos h4]
                cases memRead mem (mptr + op.offset) with
                | error e => rfl
                | ok v =>
                  simp only []
                  by_cases hf : flag = true
                  · rw [if_pos hf, if_pos hf]
                    rfl
                  · rw [if_neg hf, if_neg hf]
                    rfl
              · rw [if_neg h4, if_neg h4]
                by_cases h5 : op.op = OP_IN
                · rw [if_pos h5, if_pos h5]
                  cases sb.head? with
                  | none => rfl
                  | some v =>
                    simp only []
                    by_cases hv : v > 0
                    · rw [if_pos hv, if_pos hv]
                      cases memWrite mem (mptr + op.offset) v with
                      | error e => rfl
                      | ok mem2 => rfl
                    · rw [if_neg hv, if_neg hv]
                      rfl
                · rw [if_neg h5, if_neg h5]
                  by_cases h9 : op.op = OP_CLEAR
                  · rw [if_pos h9, if_pos h9]
                    cases memWrite mem (mptr + op.offset) 0 with
                    | error e => rfl
                    | ok mem2 => rfl
                  · rw [if_neg h9, if_neg h9]
                    by_cases h10 : op.op = OP_COPY
                    · rw [if_pos h10, if_pos h10]
                      cases memRead mem (mptr + op.offset) with
                      | error e => rfl
                      | ok v =>
                        simp only []
                        by_cases hv : v > 0
                        · rw [if_pos hv, if_pos hv]
                          cases copyFold (mptr + op.offset) mem op.tbl with
                          | error e => rfl
                          | ok mem2 =>
                            simp only []
                            cases memWrite mem2 (mptr + op.offset) 0 with
                            | error e => rfl
                            | ok mem3 => rfl
                        · rw [if_neg hv, if_neg hv]
                          rfl
                    · rw [if_neg h10, if_neg h10]
                      by_cases h11 : op.op = OP_SCANR
                      · rw [if_pos h11, if_pos h11]
                        cases (if mptr + op.offset > 0 then
                            scanrGo mem (mptr + op.offset).toNat
                          else Except.ok (mptr + op.offset)) with
                        | error e => rfl
                        | ok p2 => rfl
                      · rw [if_neg h11, if_neg h11]
                        by_cases h12 : op.op = OP_SCANL
                        · rw [if_pos h12, if_pos h12]
                          cases scanlGo mem
                              (((ops.length : Int) - 1 -
                                (mptr + op.offset)).toNat)
                              (mptr + op.offset) with
                          | error e => rfl
                          | ok p2 => rfl
                        · rw [if_neg h12, if_neg h12]
                          rfl

theorem evalStep_ok_shape (ops : List Opcode) (flag : Bool)
    (mem : Nat → Nat) (pc mptr : Int) (sb wld ob sob : List Nat)
    (st2 : EvalState)
    (he : evalStep ops flag ⟨mem, pc, mptr, some sb, wld, ob, sob⟩ =
      .ok st2) :
    ∃ mem2 pc2 mptr2 sb2 ob2 sob2,
      st2 = ⟨mem2, pc2, mptr2, some sb2, wld, ob2, sob2⟩ := by
  simp only [evalStep, doRead_some] at he
  cases hfetch : pyListGet ops pc with
  | none =>
    rw [hfetch] at he
    cases he
  | some op =>
    rw [hfetch] at he
    simp only [] at he
    by_cases h8 : op.op = OP_MOVE
    · rw [if_pos h8] at he
      injection he with he2
      subst he2
      exact ⟨_, _, _, _, _, _, rfl⟩
    · rw [if_neg h8] at he
      by_cases h0 : op.op = OP_ADD
      · rw [if_pos h0] at he
        cases hr : memRead mem (mptr + op.offset) with
        | error e =>
          rw [hr] at he
          simp only [] at he
          cases he
        | ok v =>
          rw [hr] at he
          simp only [] at he
          cases hw2 : memWrite mem (mptr + op.offset)
              (((v : Int) + op.arg).emod 256).toNat with
          | error e =>
            rw [hw2] at he
            cases he
          | ok mem2 =>
            rw [hw2] at he
            injection he with he2
            subst he2
            exact ⟨_, _, _, _, _, _, rfl⟩
      · rw [if_neg h0] at he
        by_cases h1 : op.op = OP_SUB
        · rw [if_pos h1] at he
          cases hr : memRead mem (mptr + op.offset) with
          | error e =>
            rw [hr] at he
            simp only [] at he
            cases he
          | ok v =>
            rw [hr] at he
            simp only [] at he
            cases hw2 : memWrite mem (mptr + op.offset)
                (((v : Int) - op.arg).emod 256).toNat with
            | error e =>
              rw [hw2] at he
              cases he
            | ok mem2 =>
              rw [hw2] at he
              injection he with he2
              subst he2
              exact ⟨_, _, _, _, _, _, rfl⟩
        · rw [if_neg h1] at he
          by_cases h6 : op.op = OP_OPEN_JMP
          · rw [if_pos h6] at he
            cases hr : memRead mem (mptr + op.offset) with
            | error e =>
              rw [hr] at he
              simp only [] at he
              cases he
            | ok v =>
              rw [hr] at he
              simp only [] at he
              injection he with he2
              subst he2
              exact ⟨_, _, _, _, _, _, rfl⟩
          · rw [if_neg h6] at he
            by_cases h7 : op.op = OP_CLOSE_JMP
            · rw [if_pos h7] at he
              cases hr : memRead mem (mptr + op.offset) with
              | error e =>
                rw [hr] at he
                simp only [] at he
                cases he
              | ok v =>
                rw [hr] at he
                simp only [] at he
                injection he with he2
                subst he2
                exact ⟨_, _, _, _, _, _, rfl⟩
            · rw [if_neg h7] at he
              by_cases h4 : op.op = OP_OUT
              · rw [if_pos h4] at he
                cases hr : memRead mem (mptr + op.offset) with
                | error e =>
                  rw [hr] at he
                  simp only [] at he
                  cases he
                | ok v =>
                  rw [hr] at he
                  simp only [] at he
                  by_cases hf : flag = true
                  · rw [if_pos hf] at he
                    injection he with he2
                    subst he2
                    exact ⟨_, _, _, _, _, _, rfl⟩
                  · rw [if_neg hf] at he
                    injection he with he2
                    subst he2
                    exact ⟨_, _, _, _, _, _, rfl⟩
              · rw [if_neg h4] at he
                by_cases h5 : op.op = OP_IN
                · rw [if_pos h5] at he
                  cases hh : sb.head? with
                  | none =>
                    rw [hh] at he
                    simp only [] at he
                    injection he with he2
                    subst he2
                    exact ⟨_, _, _, _, _, _, rfl⟩
                  | some v =>
                    rw [hh] at he
                    simp only [] at he
                    by_cases hv : v > 0
                    · rw [if_pos hv] at he
                      cases hw2 : memWrite mem (mptr + op.offset) v with
                      | error e =>
                        rw [hw2] at he
                        cases he
                      | ok mem2 =>
                        rw [hw2] at he
                        injection he with he2
                        subst he2
                        exact ⟨_, _, _, _, _, _, rfl⟩
                    · rw [if_neg hv] at he
                      injection he with he2
                      subst he2
                      exact ⟨_, _, _, _, _, _, rfl⟩
                · rw [if_neg h5] at he
                  by_cases h9 : op.op = OP_CLEAR
                  · rw [if_pos h9] at he
                    cases hw2 : memWrite mem (mptr + op.offset) 0 with
                    | error e =>
                      rw [hw2] at he
                      cases he
                    | ok mem2 =>
                      rw [hw2] at he
                      injection he with he2
                      subst he2
                      exact ⟨_, _, _, _, _, _, rfl⟩
                  · rw [if_neg h9] at he
                    by_cases h10 : op.op = OP_COPY
                    · rw [if_pos h10] at he
                      cases hr : memRead mem (mptr + op.offset) with
                      | error e =>
                        rw [hr] at he
                        simp only [] at he
                        cases he
                      | ok v =>
                        rw [hr] at he
                        simp only [] at he
                        by_cases hv : v > 0
                        · rw [if_pos hv] at he
                          cases hcf : copyFold (mptr + op.offset) mem
                              op.tbl with
                          | error e =>
                            rw [hcf] at he
                            cases he
                          | ok mem2 =>
                            rw [hcf] at he
                            simp only [] at he
                            cases hw3 : memWrite mem2 (mptr + op.offset)
                                0 with
                            | error e =>
                              rw [hw3] at he
                              cases he
                            | ok mem3 =>
                              rw [hw3] at he
                              injection he with he2
                              subst he2
                              exact ⟨_, _, _, _, _, _, rfl⟩
                        · rw [if_neg hv] at he
                          injection he with he2
                          subst he2
                          exact ⟨_, _, _, _, _, _, rfl⟩
                    · rw [if_neg h10] at he
                      by_cases h11 : op.op = OP_SCANR
                      · rw [if_pos h11] at he
                        cases hs : (if mptr + op.offset > 0 then
                            scanrGo mem (mptr + op.offset).toNat
                          else Except.ok (mptr + op.offset)) with
                        | error e =>
                          rw [hs] at he
                          cases he
                        | ok p2 =>
                          rw [hs] at he
                          injection he with he2
                          subst he2
                          exact ⟨_, _, _, _, _, _, rfl⟩
                      · rw [if_neg h11] at he
                        by_cases h12 : op.op = OP_SCANL
                        · rw [if_pos h12] at he
                          cases hs : scanlGo mem
                              (((ops.length : Int) - 1 -
                                (mptr + op.offset)).toNat)
                              (mptr + op.offset) with
                          | error e =>
                            rw [hs] at he
                            cases he
                          | ok p2 =>
                            rw [hs] at he
                            injection he with he2
                            subst he2
                            exact ⟨_, _, _, _, _, _, rfl⟩
                        · rw [if_neg h12] at he
                          injection he with he2
                          subst he2
                          exact ⟨_, _, _, _, _, _, rfl⟩

theorem evalLoop_setWorld (ops : List Opcode) (flag : Bool) :
    ∀ (fuel : Nat) (mem : Nat → Nat) (pc mptr : Int)
    (sb wld w ob sob : List Nat),
    evalLoop ops flag fuel ⟨mem, pc, mptr, some sb, w, ob, sob⟩ =
      (evalLoop ops flag fuel ⟨mem, pc, mptr, some sb, wld, ob, sob⟩).map
        (setWorld w) := by
  intro fuel
  induction fuel with
  | zero =>
    intro mem pc mptr sb wld w ob sob
    simp only [evalLoop]
    by_cases hp : pc < (ops.length : Int)
    · rw [if_pos hp, if_pos hp]
      rfl
    · rw [if_neg hp, if_neg hp]
      rfl
  | succ fuel ih =>
    intro mem pc mptr sb wld w ob sob
    simp only [evalLoop]
    by_cases hp : pc < (ops.length : Int)
    · rw [if_pos hp, if_pos hp]
      rw [evalStep_setWorld ops flag mem pc mptr sb wld w ob sob]
      cases hs : evalStep ops flag ⟨mem, pc, mptr, some sb, wld, ob, sob⟩
        with
      | error e => rfl
      | ok st2 =>
        obtain ⟨mem2, pc2, mptr2, sb2, ob2, sob2, rfl⟩ :=
          evalStep_ok_shape ops flag mem pc mptr sb wld ob sob st2 hs
        exact ih mem2 pc2 mptr2 sb2 wld w ob2 sob2
    · rw [if_neg hp, if_neg hp]
      rfl

/-- C10: with `buffer_output = True` and a caller-supplied `data_input`,
`evaluate` is deterministic — its buffered output and final tape are a
function of the opcode sequence and that input alone.  Runs against any
two ambient standard-input streams (the only other stateful input of the
embedding) return identical output and tape. -/
theorem evaluate_buffered_deterministic (ops : List Opcode)
    (input : List Nat) (fuel : Nat) (w1 w2 : List Nat) :
    (evalRun ops (some input) true w1 fuel).map
        (fun st => (st.outBuf, st.memory)) =
      (evalRun ops (some input) true w2 fuel).map
        (fun st => (st.outBuf, st.memory)) := by
  unfold evalRun initState
  rw [evalLoop_setWorld ops true fuel (fun _ => 0) 0 0 input w2 w1 [] []]
  cases evalLoop ops true fuel ⟨fun _ => 0, 0, 0, some input, w2, [], []⟩
    with
  | error e => rfl
  | ok st => rfl
